import Mathlib

/-!
# A shallow embedding of `josestg/validate`

The Go packages `validate` (schema aggregation) and `validate/is` (validators,
composers and the constraint library) are embedded as pure Lean functions.

* A Go `error` interface value is an `Option GoError`: `none` is `nil`.
* A Go `map[string]error` is an association list with distinct keys; the
  position of an entry carries no meaning.
* A Go string is a Lean `String` (a valid UTF-8 text); `len(s)` is its number of
  UTF-8 bytes, `String.utf8ByteSize`.
* A value of a Go integer type is an `Int` inside the range of that type; what the
  numeric constraints use of their type argument (operators, `%v`, storing in an
  `any`) is the class `Number`.
* The pattern `regexEmail` is a regular expression matched by derivatives, and
  `strings.TrimSpace` removes the white space of `unicode.IsSpace`.
* The order and number of the invocations of validators are stated over
  validators that record their calls in a log passed along.
-/

set_option autoImplicit false

/-! ## Error model (`is/is.go`, `validate.go`) -/

/-- A value stored under a key of `Error.Args` (Go type `any`): the numeric
constraints store a number or a slice of numbers, of an integer type or of a
floating-point type (a `float32` value is among the `float64` values). -/
inductive ArgVal where
  | int (n : Int)
  | ints (ns : List Int)
  | float (x : Float)
  | floats (xs : List Float)
  deriving Repr

/-- The dynamic types of non-nil `error` values that the library builds or
inspects: `*is.Error`, `*is.InternalError`, `validate.Errors`, and any other
error type supplied by a caller. -/
inductive GoError where
  /-- The struct `is.Error` with its fields `Constraint`, `Message`, `Args`; a nil
  `Args` map is the empty list. -/
  | validation (constraint : String) (message : String) (args : List (String × ArgVal))
  /-- The struct `is.InternalError` with its fields `Key` and `Err`. -/
  | internal (key : String) (cause : GoError)
  /-- The map type `validate.Errors`. -/
  | errors (m : List (String × GoError))
  /-- Any other error value, identified by its message. -/
  | other (msg : String)
  deriving Repr

/-- The map type `Errors` of `validate.go`, as its list of entries. -/
abbrev Errors := List (String × GoError)

/-- The assignment `m[k] = v` on an `Errors` map: the entry of key `k` is
replaced when the key is present and added otherwise. -/
def Errors.set : Errors → String → GoError → Errors
  | [], k, v => [(k, v)]
  | (k', v') :: rest, k, v =>
    if k' = k then (k, v) :: rest else (k', v') :: Errors.set rest k v

/-- The key set of an `Errors` map. -/
def Errors.keys (m : Errors) : List String := m.map Prod.fst

/-- `NewError` of `is/is.go`. -/
def NewError (constraint : String) (message : String) (args : List (String × ArgVal)) :
    GoError :=
  .validation constraint message args

/-- `NewInternalError` of `is/is.go`. -/
def NewInternalError (key : String) (err : GoError) : GoError :=
  .internal key err

/-- The type switch `case *is.InternalError` of `Schema.Validate`. -/
def GoError.isInternal : GoError → Bool
  | .internal _ _ => true
  | _ => false

mutual
/-- Whether an error is an `InternalError` or an `Errors` map holding one as an
entry, at any nesting depth. -/
def GoError.hasInternal : GoError → Bool
  | .validation _ _ _ => false
  | .internal _ _ => true
  | .errors m => Errors.hasInternal m
  | .other _ => false
/-- Whether some entry of the map is or holds an `InternalError`. -/
def Errors.hasInternal : List (String × GoError) → Bool
  | [] => false
  | (_, e) :: rest => e.hasInternal || Errors.hasInternal rest
end

/-! ## Validator / composer core (`is/is.go`) -/

/-- The type `Validator[T]`: a function from a value to an optional error. -/
abbrev Validator (T : Type) := T → Option GoError

/-- The method `Validator.Evaluate`. -/
def Validator.Evaluate {T : Type} (f : Validator T) (n : T) : Option GoError := f n

/-- The `for ... range validators` loop of `mergeValidator`, on the value `v`. -/
def mergeValidator.loop {T : Type} (v : T) : List (Validator T) → Option GoError
  | [] => none
  | validator :: rest =>
    match validator v with
    | some err => some err
    | none => mergeValidator.loop v rest

/-- `mergeValidator` of `is/is.go`. -/
def mergeValidator {T : Type} (validators : List (Validator T)) : Validator T :=
  fun v => mergeValidator.loop v validators

/-- The type `Composer[T]`. -/
abbrev Composer (T : Type) := Validator T → Validator T

/-- `compose` of `is/is.go`. -/
def compose {T : Type} (composer : Composer T) (next : Validator T) : Composer T :=
  fun validator => mergeValidator [composer validator, next]

/-- `Identity` of `is/is.go`. -/
def Identity {F : Type} (f : F) : F := f

/-- `nop` of `is/is.go`: the validator that always returns nil. -/
def nop {T : Type} : Validator T := fun _ => none

/-! ## String composer (`is/strings.go`) -/

/-- The type `StringComposer`. -/
abbrev StringComposer := Composer String

/-- The constructor `is.String()`. -/
def is_String : StringComposer := Identity

/-- The method `StringComposer.And`. -/
def StringComposer.And (f : StringComposer) (next : Validator String) : StringComposer :=
  compose f next

/-- The method `StringComposer.Compose`. -/
def StringComposer.Compose (f : StringComposer) : Validator String := f nop

/-- `notBlank` of `is/strings.go`. -/
def notBlank : Validator String := fun s =>
  if "" = s then some (NewError "string_not_blank" "must not be blank" []) else none

/-- `strLen` of `is/strings.go`; `%d` prints the bound in decimal. -/
def strLen (min : Int) (max : Int) : Validator String := fun s =>
  let args : List (String × ArgVal) :=
    [("min", .int min), ("max", .int max), ("len", .int (s.utf8ByteSize : Int))]
  if min > 0 ∧ min > (s.utf8ByteSize : Int) then
    some (NewError "string_len" ("must be at least " ++ toString min ++ " characters") args)
  else if max > 0 ∧ max < (s.utf8ByteSize : Int) then
    some (NewError "string_len" ("must be at most " ++ toString max ++ " characters") args)
  else none

/-- The function `unicode.IsSpace` of the Go standard library: the white space
characters of Unicode, given by their code points. -/
def isSpace (c : Char) : Bool :=
  (decide (0x09 ≤ c.toNat) && decide (c.toNat ≤ 0x0D)) || decide (c.toNat = 0x20) ||
  decide (c.toNat = 0x85) || decide (c.toNat = 0xA0) || decide (c.toNat = 0x1680) ||
  (decide (0x2000 ≤ c.toNat) && decide (c.toNat ≤ 0x200A)) ||
  decide (c.toNat = 0x2028) || decide (c.toNat = 0x2029) || decide (c.toNat = 0x202F) ||
  decide (c.toNat = 0x205F) || decide (c.toNat = 0x3000)

/-- The function `strings.TrimSpace` of the Go standard library: the string
without its leading and trailing white space. -/
def TrimSpace (s : String) : String :=
  ⟨((s.data.dropWhile isSpace).reverse.dropWhile isSpace).reverse⟩

/-- `notBlankTrim` of `is/strings.go`. -/
def notBlankTrim : Validator String := fun s =>
  notBlank.Evaluate (TrimSpace s)

/-! ### Regular expressions

The fragment of the syntax of Go's `regexp` package that the pattern
`regexEmail` uses. The pattern starts with `^`, ends with `$` and has no
alternation outside its groups, so `MatchString` holds exactly when the whole
string matches what stands between the two anchors. -/

/-- A regular expression over characters. -/
inductive Regex where
  /-- Matches no string. -/
  | fail
  /-- Matches the empty string. -/
  | eps
  /-- A character class `[...]`: one character whose code point lies in one of
  the inclusive ranges. -/
  | cls (ranges : List (Nat × Nat))
  /-- Concatenation `ab`. -/
  | seq (a b : Regex)
  /-- Alternation `a|b`. -/
  | alt (a b : Regex)
  /-- Repetition `a*`. -/
  | star (a : Regex)
  deriving Repr

/-- Repetition `a+`. -/
def Regex.plus (a : Regex) : Regex := .seq a (.star a)

/-- Option `a?`. -/
def Regex.opt (a : Regex) : Regex := .alt a .eps

/-- The single character of code point `n`, as written `\xNN` or literally. -/
def Regex.chr (n : Nat) : Regex := .cls [(n, n)]

/-- Whether the code point of `c` lies in one of the ranges. -/
def Regex.inRanges (ranges : List (Nat × Nat)) (c : Char) : Bool :=
  ranges.any (fun r => decide (r.1 ≤ c.toNat) && decide (c.toNat ≤ r.2))

/-- Whether the expression matches the empty string. -/
def Regex.nullable : Regex → Bool
  | .fail => false
  | .eps => true
  | .cls _ => false
  | .seq a b => a.nullable && b.nullable
  | .alt a b => a.nullable || b.nullable
  | .star _ => true

/-- The derivative: the expression matching the strings `w` such that `c`
followed by `w` matches the given expression. -/
def Regex.deriv : Regex → Char → Regex
  | .fail, _ => .fail
  | .eps, _ => .fail
  | .cls ranges, c => if Regex.inRanges ranges c then .eps else .fail
  | .seq a b, c =>
    if a.nullable then .alt (.seq (a.deriv c) b) (b.deriv c) else .seq (a.deriv c) b
  | .alt a b, c => .alt (a.deriv c) (b.deriv c)
  | .star a, c => .seq (a.deriv c) (.star a)

/-- Whether the whole list of characters matches the expression. -/
def Regex.matchList (r : Regex) : List Char → Bool
  | [] => r.nullable
  | c :: cs => (r.deriv c).matchList cs

/-- The method `MatchString` of a pattern anchored by `^` and `$`. -/
def Regex.MatchString (r : Regex) (s : String) : Bool := r.matchList s.data

/-- The strings that an expression matches, by the structure of the
expression. -/
inductive Regex.Matches : Regex → List Char → Prop where
  | eps : Regex.Matches .eps []
  | cls (ranges : List (Nat × Nat)) (c : Char) (h : Regex.inRanges ranges c = true) :
      Regex.Matches (.cls ranges) [c]
  | seq (a b : Regex) (u v : List Char) (ha : Regex.Matches a u) (hb : Regex.Matches b v) :
      Regex.Matches (.seq a b) (u ++ v)
  | altLeft (a b : Regex) (u : List Char) (ha : Regex.Matches a u) : Regex.Matches (.alt a b) u
  | altRight (a b : Regex) (u : List Char) (hb : Regex.Matches b u) : Regex.Matches (.alt a b) u
  | starNil (a : Regex) : Regex.Matches (.star a) []
  | starCons (a : Regex) (u v : List Char) (ha : Regex.Matches a u)
      (hs : Regex.Matches (.star a) v) : Regex.Matches (.star a) (u ++ v)

/-- Whether every string matching the expression provably holds the character
`@` (code point 64): a check on the shape of the expression. -/
def Regex.needsAt : Regex → Bool
  | .fail => true
  | .eps => false
  | .cls ranges => ranges.all (fun r => decide (r.1 = 64) && decide (r.2 = 64))
  | .seq a b => a.needsAt || b.needsAt
  | .alt a b => a.needsAt && b.needsAt
  | .star _ => false

/-- The class `[a-zA-Z]`. -/
def reAlpha : Regex := .cls [(0x61, 0x7A), (0x41, 0x5A)]

/-- The class `\d`, the ASCII digits. -/
def reDigit : Regex := .cls [(0x30, 0x39)]

/-- The class `[\x{00A0}-\x{D7FF}\x{F900}-\x{FDCF}\x{FDF0}-\x{FFEF}]`. -/
def reUnicode : Regex := .cls [(0x00A0, 0xD7FF), (0xF900, 0xFDCF), (0xFDF0, 0xFFEF)]

/-- The class of the punctuation of a local part: the characters
``! # $ % & ' * + - / = ? ^ _ ` { | } ~``. -/
def rePunct : Regex :=
  .cls [(0x21, 0x21), (0x23, 0x23), (0x24, 0x24), (0x25, 0x25), (0x26, 0x26), (0x27, 0x27),
        (0x2A, 0x2A), (0x2B, 0x2B), (0x2D, 0x2D), (0x2F, 0x2F), (0x3D, 0x3D), (0x3F, 0x3F),
        (0x5E, 0x5E), (0x5F, 0x5F), (0x60, 0x60), (0x7B, 0x7B), (0x7C, 0x7C), (0x7D, 0x7D),
        (0x7E, 0x7E)]

/-- One character of an unquoted local part: letter, digit, punctuation or
character of the Unicode class. -/
def reAtext : Regex := .alt reAlpha (.alt reDigit (.alt rePunct reUnicode))

/-- The unquoted local part: `atext+(?:\.(atext)+)*`. -/
def reDotAtom : Regex :=
  .seq reAtext.plus (.star (.seq (.chr 0x2E) reAtext.plus))

/-- The group `(?:\x20|\x09)`: a space or a tab. -/
def reBlank : Regex := .alt (.chr 0x20) (.chr 0x09)

/-- The group `(?:(?:(?:\x20|\x09)*(?:\x0d\x0a))?(?:\x20|\x09)+)`: folding white
space. -/
def reFold : Regex :=
  .seq (Regex.opt (.seq (.star reBlank) (.seq (.chr 0x0D) (.chr 0x0A)))) reBlank.plus

/-- The first alternative of a quoted character:
`[\x01-\x08\x0b\x0c\x0e-\x1f\x7f]|\x21|[\x23-\x5b]|[\x5d-\x7e]|` Unicode class. -/
def reQtext : Regex :=
  .alt (.cls [(0x01, 0x08), (0x0B, 0x0B), (0x0C, 0x0C), (0x0E, 0x1F), (0x7F, 0x7F)])
    (.alt (.chr 0x21) (.alt (.cls [(0x23, 0x5B)]) (.alt (.cls [(0x5D, 0x7E)]) reUnicode)))

/-- The second alternative of a quoted character:
`[\x01-\x09\x0b\x0c\x0d-\x7f]|` Unicode class. -/
def reQany : Regex :=
  .alt (.cls [(0x01, 0x09), (0x0B, 0x0B), (0x0C, 0x0C), (0x0D, 0x7F)]) reUnicode

/-- The quoted local part: `\x22`, then any number of quoted characters each after
an optional folding white space, then an optional folding white space, then
`\x22`. -/
def reQuoted : Regex :=
  .seq (.chr 0x22)
    (.seq (.star (.seq reFold.opt (.alt reQtext reQany)))
      (.seq reFold.opt (.chr 0x22)))

/-- The local part: unquoted or quoted. -/
def reLocal : Regex := .alt reDotAtom reQuoted

/-- The class of the inner characters of a domain label:
`[a-zA-Z]|\d|-|\.|~|` Unicode class. -/
def reInner : Regex :=
  .alt reAlpha (.alt reDigit (.alt (.chr 0x2D) (.alt (.chr 0x2E) (.alt (.chr 0x7E) reUnicode))))

/-- The first and last character of a domain label: `[a-zA-Z]|\d|` Unicode
class. -/
def reEdge : Regex := .alt reAlpha (.alt reDigit reUnicode)

/-- A domain label: one edge character, or two of them around inner characters. -/
def reLabel : Regex := .alt reEdge (.seq reEdge (.seq (.star reInner) reEdge))

/-- The first and last character of the last label: `[a-zA-Z]|` Unicode class. -/
def reTopEdge : Regex := .alt reAlpha reUnicode

/-- The last label of the domain. -/
def reTop : Regex := .alt reTopEdge (.seq reTopEdge (.seq (.star reInner) reTopEdge))

/-- The domain: `(?:label\.)+top\.?`. -/
def reDomain : Regex :=
  .seq (Regex.plus (.seq reLabel (.chr 0x2E))) (.seq reTop (Regex.opt (.chr 0x2E)))

/-- The pattern `regexEmail` of `is/strings.go`, between its anchors: the local
part, the character `@`, the domain. -/
def regexEmail : Regex := .seq reLocal (.seq (.chr 0x40) reDomain)

/-- `email` of `is/strings.go`. -/
def email : Validator String := fun s =>
  if !regexEmail.MatchString s then
    some (NewError "string_email" "must be a valid email address" [])
  else none

/-- The method `StringComposer.NotBlank`. -/
def StringComposer.NotBlank (f : StringComposer) : StringComposer := f.And notBlank

/-- The method `StringComposer.Len`. -/
def StringComposer.Len (f : StringComposer) (min : Int) (max : Int) : StringComposer :=
  f.And (strLen min max)

/-- The method `StringComposer.NotBlankTrim`. -/
def StringComposer.NotBlankTrim (f : StringComposer) : StringComposer := f.And notBlankTrim

/-- The method `StringComposer.Email`. -/
def StringComposer.Email (f : StringComposer) : StringComposer := f.And email

/-- The chain `String().And(v1)...And(vn)`. -/
def stringChain (vs : List (Validator String)) : StringComposer :=
  vs.foldl StringComposer.And is_String

/-! ## Numeric constraints (`is/number.go`) and integer composer (`is/integers.go`) -/

/-- What the generic numeric constraints use of a type argument `T` of the type
set `Number`: the operators `<` and `==` of the type, the text that the verb `%v`
of package `fmt` prints for a value, and the storing of a value or of a slice of
values in an `any`. -/
class Number (T : Type) where
  /-- The operator `<`. -/
  lt : T → T → Bool
  /-- The operator `==`. -/
  eq : T → T → Bool
  /-- The text printed for a value by `%v`: the result of the method `String` (or
  `Error`, `Format`) when the type has one, the numeral of the value otherwise. -/
  fmtV : T → String
  /-- The value as an `any`. -/
  box : T → ArgVal
  /-- The slice of values as an `any`. -/
  boxSlice : List T → ArgVal

/-- An integer type of `Integers` without formatting method, such as the
predeclared `int`, `int8`, ..., `uint64`: the values are integers of the range of
the type, and `%v` prints the decimal numeral. -/
instance instNumberInt : Number Int where
  lt a b := decide (a < b)
  eq a b := decide (a = b)
  fmtV n := toString n
  box n := .int n
  boxSlice ns := .ints ns

/-- The floating-point types `float64` and `float32`: the comparisons are those of
IEEE 754, and the text that `%v` prints for a value (the shortest decimal that
reads back as the value, computed by package `strconv`) is the parameter
`fmtG`. -/
def floatNumber (fmtG : Float → String) : Number Float where
  lt a b := decide (a < b)
  eq a b := a == b
  fmtV x := fmtG x
  box x := .float x
  boxSlice xs := .floats xs

/-- The type `time.Weekday` of the Go standard library, `type Weekday int`: a named
type of the type set of `Integers` that has a `String` method. -/
structure Weekday where
  val : Int
  deriving DecidableEq, Repr

/-- The table `longDayNames` of package `time`. -/
def longDayNames : List String :=
  ["Sunday", "Monday", "Tuesday", "Wednesday", "Thursday", "Friday", "Saturday"]

/-- The method `Weekday.String` of package `time`: the English name of the day
for the values 0 to 6, and `%!Weekday(n)` with `n` the value converted to `uint64`
for the others. -/
def weekdayString (d : Weekday) : String :=
  if 0 ≤ d.val ∧ d.val ≤ 6 then longDayNames.getD d.val.toNat ""
  else "%!Weekday(" ++ toString (d.val % 2 ^ 64).toNat ++ ")"

/-- The type `time.Weekday` as a type argument of the numeric constraints: the
operators are those of `int`, `%v` calls the method `String`, and the value stored
in an `any` is the integer (which is what `encoding/json` prints). -/
instance instNumberWeekday : Number Weekday where
  lt a b := decide (a.val < b.val)
  eq a b := decide (a.val = b.val)
  fmtV d := weekdayString d
  box d := .int d.val
  boxSlice ds := .ints (ds.map Weekday.val)

/-- The `%v` rendering of a slice, as in `[17 19]`: the renderings of the elements
between brackets, separated by a space. -/
def fmtSlice {T : Type} [Number T] (choices : List T) : String :=
  "[" ++ " ".intercalate (choices.map Number.fmtV) ++ "]"

/-- `minimum` of `is/number.go`. -/
def minimum {T : Type} [Number T] (constraint : String) (min : T) : Validator T := fun n =>
  let args : List (String × ArgVal) := [("min", Number.box min), ("val", Number.box n)]
  if Number.lt n min then
    some (NewError constraint ("must be greater than or equal to " ++ Number.fmtV min) args)
  else none

/-- `maximum` of `is/number.go`. -/
def maximum {T : Type} [Number T] (constraint : String) (max : T) : Validator T := fun n =>
  let args : List (String × ArgVal) := [("max", Number.box max), ("val", Number.box n)]
  if Number.lt max n then
    some (NewError constraint ("must be less than or equal to " ++ Number.fmtV max) args)
  else none

/-- The `for ... range choices` loop of `choose`: whether some choice equals `n`. -/
def choose.loop {T : Type} [Number T] (n : T) : List T → Bool
  | [] => false
  | choice :: rest => if Number.eq choice n then true else choose.loop n rest

/-- `choose` of `is/number.go`. -/
def choose {T : Type} [Number T] (constraint : String) (choices : List T) : Validator T :=
  fun n =>
    let args : List (String × ArgVal) :=
      [("choices", Number.boxSlice choices), ("val", Number.box n)]
    if choose.loop n choices then none
    else some (NewError constraint ("must be one of " ++ fmtSlice choices) args)

/-- The type `IntComposer[T]`. -/
abbrev IntComposer (T : Type) := Composer T

/-- The constructor `is.Int[T]()`. -/
def is_Int (T : Type) : IntComposer T := Identity

/-- The method `IntComposer.and`. -/
def IntComposer.and {T : Type} (f : IntComposer T) (next : Validator T) : IntComposer T :=
  compose f next

/-- The method `IntComposer.Compose`. -/
def IntComposer.Compose {T : Type} (f : IntComposer T) : Validator T := f nop

/-- The method `IntComposer.Min`. -/
def IntComposer.Min {T : Type} [Number T] (f : IntComposer T) (min : T) : IntComposer T :=
  f.and (minimum "integer_min" min)

/-- The method `IntComposer.Max`. -/
def IntComposer.Max {T : Type} [Number T] (f : IntComposer T) (max : T) : IntComposer T :=
  f.and (maximum "integer_max" max)

/-- The method `IntComposer.Choose`. -/
def IntComposer.Choose {T : Type} [Number T] (f : IntComposer T) (choices : List T) :
    IntComposer T :=
  f.and (choose "integer_choose" choices)

/-! ## Float composer (`is/floats.go`) -/

/-- The type `FloatComposer[T]`. -/
abbrev FloatComposer (T : Type) := Composer T

/-- The constructor `is.Float[T]()`. -/
def is_Float (T : Type) : FloatComposer T := Identity

/-- The method `FloatComposer.and`. -/
def FloatComposer.and {T : Type} (f : FloatComposer T) (next : Validator T) :
    FloatComposer T :=
  compose f next

/-- The method `FloatComposer.Compose`. -/
def FloatComposer.Compose {T : Type} (f : FloatComposer T) : Validator T := f nop

/-- The method `FloatComposer.Min`. -/
def FloatComposer.Min {T : Type} [Number T] (f : FloatComposer T) (min : T) :
    FloatComposer T :=
  f.and (minimum "float_min" min)

/-- The method `FloatComposer.Max`. -/
def FloatComposer.Max {T : Type} [Number T] (f : FloatComposer T) (max : T) :
    FloatComposer T :=
  f.and (maximum "float_max" max)

/-- The method `FloatComposer.Choose`. -/
def FloatComposer.Choose {T : Type} [Number T] (f : FloatComposer T) (choices : List T) :
    FloatComposer T :=
  f.and (choose "float_choose" choices)

/-! ## Go integer types (`Integers` of `is/integers.go`) -/

/-- A fixed-width Go integer type: its signedness and its width in bits. -/
structure IntType where
  signed : Bool
  bits : Nat
  deriving DecidableEq, Repr

/-- The least value of the type. -/
def IntType.minVal (T : IntType) : Int :=
  if T.signed then -(2 ^ (T.bits - 1)) else 0

/-- The greatest value of the type. -/
def IntType.maxVal (T : IntType) : Int :=
  if T.signed then 2 ^ (T.bits - 1) - 1 else 2 ^ T.bits - 1

/-- Whether the integer `x` is a value of the type. -/
def IntType.inRange (T : IntType) (x : Int) : Prop :=
  T.minVal ≤ x ∧ x ≤ T.maxVal

instance (T : IntType) (x : Int) : Decidable (T.inRange x) := by
  unfold IntType.inRange; exact inferInstance

/-- The value of the type that the mathematical integer `x` wraps around to
(two's complement for the signed types). -/
def IntType.wrap (T : IntType) (x : Int) : Int :=
  if T.signed then (x + 2 ^ (T.bits - 1)) % 2 ^ T.bits - 2 ^ (T.bits - 1)
  else x % 2 ^ T.bits

/-- The subtraction `a - b` of the type, which wraps around on overflow. -/
def IntType.sub (T : IntType) (a b : Int) : Int := T.wrap (a - b)

/-- The type set of the constraint `Integers`: `int`, `int8`, `int16`, `int32`,
`int64`, `uint`, `uint8`, `uint16`, `uint32`, `uint64` (with `int` and `uint` of
64 bits). -/
def Integers : List IntType :=
  [⟨true, 64⟩, ⟨true, 8⟩, ⟨true, 16⟩, ⟨true, 32⟩, ⟨true, 64⟩,
   ⟨false, 64⟩, ⟨false, 8⟩, ⟨false, 16⟩, ⟨false, 32⟩, ⟨false, 64⟩]

/-! ## Schema aggregator (`validate.go`) -/

/-- The type `Predicate`: a function of no argument returning an optional error. -/
abbrev Predicate := Unit → Option GoError

/-- The type `Schema`, a `map[string]Predicate`, as the list of its entries in
the order in which `range` visits them. -/
abbrev Schema := List (String × Predicate)

/-- The field names of a schema. -/
def Schema.fields (s : Schema) : List String := s.map Prod.fst

/-- The `for field, predicate := range s` loop of `Schema.Validate`, started with
the map `m`: `Except.error et` is the early `return et`, `Except.ok` the map held
when the loop ends. -/
def Schema.Validate.loop : List (String × Predicate) → Errors → Except GoError Errors
  | [], m => .ok m
  | (field, predicate) :: rest, m =>
    match predicate () with
    | none => Schema.Validate.loop rest m
    | some (.internal key cause) => .error (.internal key cause)
    | some err => Schema.Validate.loop rest (m.set field err)

/-- `Schema.Validate` of `validate.go`. -/
def Schema.Validate (s : Schema) : Option GoError :=
  match Schema.Validate.loop s [] with
  | .error et => some et
  | .ok m => if m.length > 0 then some (.errors m) else none

/-- `Bind` of `validate.go`. -/
def validate.Bind {T : Type} (data : T) (validator : Validator T) : Predicate :=
  fun _ => validator.Evaluate data

/-- The `for index, item := range data` loop of `BindSlice`, from the index
`index` on and started with the map `errs`; `fmt.Sprint(index)` is the decimal
numeral of the index. -/
def validate.BindSlice.loop {T : Type} (validator : Validator T) : List T → Nat → Errors → Errors
  | [], _, errs => errs
  | item :: rest, index, errs =>
    match validator.Evaluate item with
    | some err => validate.BindSlice.loop validator rest (index + 1) (errs.set (toString index) err)
    | none => validate.BindSlice.loop validator rest (index + 1) errs

/-- `BindSlice` of `validate.go`. -/
def validate.BindSlice {T : Type} (data : List T) (validator : Validator T) : Predicate :=
  fun _ =>
    let errs := validate.BindSlice.loop validator data 0 []
    if errs.length > 0 then some (.errors errs) else none

/-- Whether the predicate returns an `InternalError`. -/
def returnsInternal (p : Predicate) : Bool :=
  match p () with
  | some e => e.isInternal
  | none => false

/-- The entries that the failing predicates of a schema contribute: the field
name with the error returned, for each predicate returning a non-nil error. -/
def Schema.failures (s : Schema) : Errors :=
  s.filterMap (fun p => (p.2 ()).map (fun e => (p.1, e)))

/-- The schema of `TestSchema_Validate` (`validate_test.go`), restricted to its
fields over strings and integers, in the order of the source text. -/
def testSchema : Schema :=
  [("name", validate.Bind "bob" ((is_String.NotBlank).Len 4 40).Compose),
   ("password", validate.Bind "12345" ((is_String.NotBlank).Len 6 20).Compose),
   ("age", validate.Bind (15 : Int) (((is_Int Int).Min 18).Max 100).Compose),
   ("favourite_numbers",
      validate.BindSlice [(1 : Int), 2, 3, 4, 5] ((is_Int Int).Choose [17, 19]).Compose)]

/-- A validator that reports a failure of the service it depends on. -/
def serviceDown : Validator Int :=
  fun _ => some (NewInternalError "db" (.other "connection refused"))

/-- The entries that the failing elements of a slice contribute, the first
element having the index `index`: the decimal index with the error returned, for
each element on which the validator fails. -/
def sliceFailures {T : Type} (validator : Validator T) : List T → Nat → Errors
  | [], _ => []
  | item :: rest, index =>
    match validator item with
    | some err => (toString index, err) :: sliceFailures validator rest (index + 1)
    | none => sliceFailures validator rest (index + 1)

/-- The decimal value of a digit character (`0` for any other character). -/
def digitValue (c : Char) : Nat := c.toNat - 48

/-- The number read from a list of decimal digits, continuing from `acc`. -/
def readDigits (cs : List Char) (acc : Nat) : Nat :=
  cs.foldl (fun a c => 10 * a + digitValue c) acc

/-- Equality of two results of `Schema.Validate` as Go values: two `Errors` maps
are equal when they hold the same entries, whatever the positions of the entries
in the two lists; any other two results are equal when they are the same. -/
def sameResult : Option GoError → Option GoError → Prop
  | some (.errors m), some (.errors m') => m.Perm m'
  | r, r' => r = r'

/-- The keys of the args map of a validation error (none for the other errors). -/
def GoError.argKeys : GoError → List String
  | .validation _ _ args => args.map Prod.fst
  | _ => []

/-! ## Call log

The validators are pure functions; to state in which order and how often they
are invoked, the loop of `mergeValidator` is also given over validators that
record each invocation in a log passed along the calls. -/

/-- A validator that records its invocations: from a value and the log of the
calls made so far it returns its error and the log with its own call added. -/
abbrev LoggedValidator (T : Type) := T → List Nat → Option GoError × List Nat

/-- The validator `f` under the name `name`: an invocation returns what `f`
returns and appends `name` to the log. -/
def logged {T : Type} (name : Nat) (f : Validator T) : LoggedValidator T :=
  fun v log => (f v, log ++ [name])

/-- The validators of a list under the names `i`, `i+1`, ... of their positions. -/
def loggedFrom {T : Type} (i : Nat) : List (Validator T) → List (LoggedValidator T)
  | [] => []
  | f :: rest => logged i f :: loggedFrom (i + 1) rest

/-- The `for ... range validators` loop of `mergeValidator` over validators that
record their invocations. -/
def mergeLogged.loop {T : Type} (v : T) :
    List (LoggedValidator T) → List Nat → Option GoError × List Nat
  | [], log => (none, log)
  | validator :: rest, log =>
    match validator v log with
    | (some err, log') => (some err, log')
    | (none, log') => mergeLogged.loop v rest log'

/-- `mergeValidator` over validators that record their invocations. -/
def mergeLogged {T : Type} (validators : List (LoggedValidator T)) : LoggedValidator T :=
  fun v log => mergeLogged.loop v validators log

/-- `compose` over validators that record their invocations. -/
def composeLogged {T : Type} (composer : LoggedValidator T → LoggedValidator T)
    (next : LoggedValidator T) : LoggedValidator T → LoggedValidator T :=
  fun validator => mergeLogged [composer validator, next]

/-- `nop` as a recording validator: the terminal of a chain is none of its
constraints and leaves the log as it is. -/
def nopLogged {T : Type} : LoggedValidator T := fun _ log => (none, log)

/-! ## The numeric constraints at the integer types without formatting method -/

theorem minimum_int (c : String) (m v : Int) :
    minimum c m v =
      if v < m then
        some (NewError c ("must be greater than or equal to " ++ toString m)
          [("min", .int m), ("val", .int v)])
      else none := by
  by_cases h : v < m <;> simp [minimum, Number.lt, Number.box, Number.fmtV, h]

theorem maximum_int (c : String) (m v : Int) :
    maximum c m v =
      if m < v then
        some (NewError c ("must be less than or equal to " ++ toString m)
          [("max", .int m), ("val", .int v)])
      else none := by
  by_cases h : m < v <;> simp [maximum, Number.lt, Number.box, Number.fmtV, h]

theorem choose_int (c : String) (cs : List Int) (v : Int) :
    choose c cs v =
      if choose.loop v cs then none
      else some (NewError c ("must be one of " ++ fmtSlice cs)
        [("choices", .ints cs), ("val", .int v)]) := rfl

/-! ## The validator / composer core -/

theorem mergeValidator_loop_eq_none {T : Type} (x : T) (vs : List (Validator T)) :
    mergeValidator.loop x vs = none ↔ ∀ v ∈ vs, v x = none := by
  induction vs with
  | nil => simp [mergeValidator.loop]
  | cons v rest ih =>
    cases hv : v x with
    | none => simp [mergeValidator.loop, hv, ih]
    | some e => simp [mergeValidator.loop, hv]

theorem mergeValidator_loop_eq_some {T : Type} (x : T) (vs : List (Validator T))
    (e : GoError) :
    mergeValidator.loop x vs = some e ↔
      ∃ pre v post, vs = pre ++ v :: post ∧ (∀ u ∈ pre, u x = none) ∧ v x = some e := by
  induction vs with
  | nil => simp [mergeValidator.loop]
  | cons v rest ih =>
    cases hv : v x with
    | none =>
      simp only [mergeValidator.loop, hv, ih]
      constructor
      · rintro ⟨pre, w, post, rfl, hpre, hw⟩
        refine ⟨v :: pre, w, post, rfl, ?_, hw⟩
        intro u hu
        rcases List.mem_cons.mp hu with rfl | hu
        · exact hv
        · exact hpre u hu
      · rintro ⟨pre, w, post, hsplit, hpre, hw⟩
        cases pre with
        | nil =>
          simp only [List.nil_append, List.cons.injEq] at hsplit
          obtain ⟨rfl, -⟩ := hsplit
          rw [hv] at hw
          exact absurd hw (by simp)
        | cons p pre =>
          simp only [List.cons_append, List.cons.injEq] at hsplit
          obtain ⟨rfl, rfl⟩ := hsplit
          exact ⟨pre, w, post, rfl, fun u hu => hpre u (List.mem_cons_of_mem _ hu), hw⟩
    | some e' =>
      simp only [mergeValidator.loop, hv, Option.some.injEq]
      constructor
      · rintro rfl
        exact ⟨[], v, rest, rfl, by simp, hv⟩
      · rintro ⟨pre, w, post, hsplit, hpre, hw⟩
        cases pre with
        | nil =>
          simp only [List.nil_append, List.cons.injEq] at hsplit
          obtain ⟨rfl, -⟩ := hsplit
          rw [hv] at hw
          exact Option.some.inj hw
        | cons p pre =>
          simp only [List.cons_append, List.cons.injEq] at hsplit
          obtain ⟨rfl, -⟩ := hsplit
          have := hpre v (List.mem_cons_self _ _)
          rw [hv] at this
          exact absurd this (by simp)

/-- A chain started from the composer `c` evaluates `c` first and then the
appended validators in call order. -/
theorem foldl_compose_apply {T : Type} (vs : List (Validator T)) (c : Composer T) (x : T) :
    (vs.foldl compose c) nop x =
      match c nop x with
      | some e => some e
      | none => mergeValidator.loop x vs := by
  induction vs generalizing c with
  | nil =>
    simp only [List.foldl_nil, mergeValidator.loop]
    cases c nop x <;> rfl
  | cons v rest ih =>
    rw [List.foldl_cons, ih]
    simp only [compose, mergeValidator, mergeValidator.loop]
    cases c nop x with
    | none => cases v x <;> rfl
    | some e => rfl

theorem stringChain_compose_eq (vs : List (Validator String)) (x : String) :
    (stringChain vs).Compose x = mergeValidator.loop x vs := by
  have h := foldl_compose_apply vs (Identity : Composer String) x
  simpa [stringChain, StringComposer.Compose, StringComposer.And, is_String, Identity, nop]
    using h

/-- C1: the validator `String().And(v1)...And(vn).Compose()` returns nil on `x`
exactly when every `vi` does, and returns `e` exactly when `e` is the error of the
first `vi`, in call order, that fails on `x` (all validators before it return nil);
in a chain `c1.c2.c3` whose `c1` fails on `x` the result is the error of `c1`,
whatever `c2` and `c3` return. -/
theorem C1_chain_first_error (vs : List (Validator String)) (x : String) :
    ((stringChain vs).Compose x = none ↔ ∀ v ∈ vs, v x = none) ∧
    (∀ e, (stringChain vs).Compose x = some e ↔
      ∃ pre v post, vs = pre ++ v :: post ∧ (∀ u ∈ pre, u x = none) ∧ v x = some e) ∧
    (∀ (c1 c2 c3 : Validator String) (e : GoError), c1 x = some e →
      (((is_String.And c1).And c2).And c3).Compose x = some e) := by
  refine ⟨?_, ?_, ?_⟩
  · rw [stringChain_compose_eq]
    exact mergeValidator_loop_eq_none x vs
  · intro e
    rw [stringChain_compose_eq]
    exact mergeValidator_loop_eq_some x vs e
  · intro c1 c2 c3 e h1
    have h := stringChain_compose_eq [c1, c2, c3] x
    simp only [stringChain, List.foldl_cons, List.foldl_nil] at h
    rw [h]
    simp [mergeValidator.loop, h1]

/-- C2: `mergeValidator(vs...)` returns nil on `x` if and only if every validator
of `vs` returns nil on `x`, returns `e` if and only if `e` is the error of the first
validator, in list order, that fails on `x`, and the merge of the empty list
returns nil. -/
theorem C2_mergeValidator_first_error {T : Type} (vs : List (Validator T)) (x : T) :
    (mergeValidator vs x = none ↔ ∀ v ∈ vs, v x = none) ∧
    (∀ e, mergeValidator vs x = some e ↔
      ∃ pre v post, vs = pre ++ v :: post ∧ (∀ u ∈ pre, u x = none) ∧ v x = some e) ∧
    mergeValidator ([] : List (Validator T)) x = none :=
  ⟨mergeValidator_loop_eq_none x vs, mergeValidator_loop_eq_some x vs, rfl⟩

/-! ## The schema aggregator -/

theorem Errors.set_of_not_mem (m : Errors) (k : String) (v : GoError) (h : k ∉ m.keys) :
    m.set k v = m ++ [(k, v)] := by
  induction m with
  | nil => rfl
  | cons p rest ih =>
    obtain ⟨k', v'⟩ := p
    simp only [Errors.keys, List.map_cons, List.mem_cons, not_or] at h
    have hne : ¬ k' = k := fun hk => h.1 hk.symm
    simp only [Errors.set, hne, if_false, List.cons_append, List.cons.injEq, true_and]
    exact ih h.2

theorem Errors.keys_append (m n : Errors) : (m ++ n).keys = m.keys ++ n.keys := by
  simp [Errors.keys]

theorem Schema.failures_cons_none (field : String) (predicate : Predicate) (rest : Schema)
    (h : predicate () = none) :
    Schema.failures ((field, predicate) :: rest) = Schema.failures rest := by
  simp [Schema.failures, List.filterMap_cons, h]

theorem Schema.failures_cons_some (field : String) (predicate : Predicate) (rest : Schema)
    (e : GoError) (h : predicate () = some e) :
    Schema.failures ((field, predicate) :: rest) = (field, e) :: Schema.failures rest := by
  simp [Schema.failures, List.filterMap_cons, h]

/-- When no predicate returns an `InternalError` and the field names are distinct
and absent from the map `m`, the loop ends with `m` extended by the failures. -/
theorem Schema.Validate.loop_ok (s : Schema) (m : Errors)
    (hno : ∀ p ∈ s, returnsInternal p.2 = false)
    (hnodup : s.fields.Nodup) (hdisj : ∀ k ∈ s.fields, k ∉ m.keys) :
    Schema.Validate.loop s m = .ok (m ++ s.failures) := by
  induction s generalizing m with
  | nil => simp [Schema.Validate.loop, Schema.failures]
  | cons p rest ih =>
    obtain ⟨field, predicate⟩ := p
    have hno' : ∀ p ∈ rest, returnsInternal p.2 = false :=
      fun p hp => hno p (List.mem_cons_of_mem _ hp)
    simp only [Schema.fields, List.map_cons, List.nodup_cons] at hnodup
    have hdisj' : ∀ k ∈ Schema.fields rest, k ∉ m.keys :=
      fun k hk => hdisj k (List.mem_cons_of_mem _ hk)
    have hfield : field ∉ m.keys := hdisj field (List.mem_cons_self _ _)
    have hint := hno (field, predicate) (List.mem_cons_self _ _)
    cases hp : predicate () with
    | none =>
      rw [Schema.failures_cons_none field predicate rest hp]
      simp only [Schema.Validate.loop, hp]
      exact ih m hno' hnodup.2 hdisj'
    | some e =>
      rw [Schema.failures_cons_some field predicate rest e hp]
      have hstep : Schema.Validate.loop ((field, predicate) :: rest) m =
          Schema.Validate.loop rest (m.set field e) := by
        cases e with
        | internal key cause => simp [returnsInternal, hp, GoError.isInternal] at hint
        | validation c msg args => simp only [Schema.Validate.loop, hp]
        | errors n => simp only [Schema.Validate.loop, hp]
        | other msg => simp only [Schema.Validate.loop, hp]
      rw [hstep, Errors.set_of_not_mem m field e hfield]
      have hdisj2 : ∀ k ∈ Schema.fields rest, k ∉ Errors.keys (m ++ [(field, e)]) := by
        intro k hk
        rw [Errors.keys_append]
        simp only [Errors.keys, List.map_cons, List.map_nil, List.mem_append,
          List.mem_singleton, not_or]
        refine ⟨hdisj' k hk, ?_⟩
        rintro rfl
        exact hnodup.1 hk
      rw [ih (m ++ [(field, e)]) hno' hnodup.2 hdisj2]
      simp

theorem Schema.failures_keys_sublist (s : Schema) :
    (Schema.failures s).keys.Sublist s.fields := by
  induction s with
  | nil => simp [Schema.failures, Errors.keys, Schema.fields]
  | cons p rest ih =>
    obtain ⟨field, predicate⟩ := p
    cases hp : predicate () with
    | none =>
      rw [Schema.failures_cons_none field predicate rest hp]
      exact List.Sublist.cons _ ih
    | some e =>
      rw [Schema.failures_cons_some field predicate rest e hp]
      exact List.Sublist.cons₂ _ ih

theorem Schema.mem_failures (s : Schema) (k : String) (e : GoError) :
    (k, e) ∈ Schema.failures s ↔ ∃ p ∈ s, p.1 = k ∧ p.2 () = some e := by
  simp only [Schema.failures, List.mem_filterMap, Option.map_eq_some', Prod.mk.injEq]
  constructor
  · rintro ⟨p, hp, e', he', hk, rfl⟩
    exact ⟨p, hp, hk, he'⟩
  · rintro ⟨p, hp, hk, he⟩
    exact ⟨p, hp, e, he, hk, rfl⟩

theorem Schema.failures_length (s : Schema) :
    (Schema.failures s).length = (s.filter (fun p => (p.2 ()).isSome)).length := by
  induction s with
  | nil => rfl
  | cons p rest ih =>
    obtain ⟨field, predicate⟩ := p
    cases hp : predicate () with
    | none =>
      rw [Schema.failures_cons_none field predicate rest hp]
      simp [List.filter_cons, hp, ih]
    | some e =>
      rw [Schema.failures_cons_some field predicate rest e hp]
      simp [List.filter_cons, hp, ih]

theorem Schema.failures_eq_nil (s : Schema) :
    Schema.failures s = [] ↔ ∀ p ∈ s, p.2 () = none := by
  induction s with
  | nil => simp [Schema.failures]
  | cons p rest ih =>
    obtain ⟨field, predicate⟩ := p
    cases hp : predicate () with
    | none =>
      rw [Schema.failures_cons_none field predicate rest hp]
      simp [ih, hp]
    | some e =>
      rw [Schema.failures_cons_some field predicate rest e hp]
      simp [hp]

/-- Without an `InternalError` and with distinct field names, `Validate` returns
the failures as an `Errors` map, or nil when there is none. -/
theorem Schema.Validate_eq_failures (s : Schema)
    (hno : ∀ p ∈ s, returnsInternal p.2 = false) (hnodup : s.fields.Nodup) :
    s.Validate = if (Schema.failures s).length > 0 then some (.errors (Schema.failures s))
      else none := by
  have h := Schema.Validate.loop_ok s [] hno hnodup (by simp [Errors.keys])
  simp only [Schema.Validate, h, List.nil_append]

/-- The result of `Schema.Validate` on the schema of the test: the four entries
that `TestSchema_Validate` expects for these fields, with their tags, messages
and args. -/
theorem testSchema_Validate :
    testSchema.Validate = some (.errors
      [("name", .validation "string_len" "must be at least 4 characters"
          [("min", .int 4), ("max", .int 40), ("len", .int 3)]),
       ("password", .validation "string_len" "must be at least 6 characters"
          [("min", .int 6), ("max", .int 20), ("len", .int 5)]),
       ("age", .validation "integer_min" "must be greater than or equal to 18"
          [("min", .int 18), ("val", .int 15)]),
       ("favourite_numbers", .errors
          [("0", .validation "integer_choose" "must be one of [17 19]"
              [("choices", .ints [17, 19]), ("val", .int 1)]),
           ("1", .validation "integer_choose" "must be one of [17 19]"
              [("choices", .ints [17, 19]), ("val", .int 2)]),
           ("2", .validation "integer_choose" "must be one of [17 19]"
              [("choices", .ints [17, 19]), ("val", .int 3)]),
           ("3", .validation "integer_choose" "must be one of [17 19]"
              [("choices", .ints [17, 19]), ("val", .int 4)]),
           ("4", .validation "integer_choose" "must be one of [17 19]"
              [("choices", .ints [17, 19]), ("val", .int 5)])])]) := rfl

/-- C3: when the field names are distinct (the schema is a map) and no predicate
returns an `InternalError`, `Schema.Validate` returns nil if and only if every
predicate returns nil, and otherwise returns an `Errors` map with distinct keys
whose keys are exactly the names of the fields whose predicate failed, with as
many entries as failing fields, each key mapped to the error its predicate
returned. -/
theorem C3_validate_aggregates (s : Schema) (hnodup : s.fields.Nodup)
    (hno : ∀ p ∈ s, returnsInternal p.2 = false) :
    (s.Validate = none ↔ ∀ p ∈ s, p.2 () = none) ∧
    ((∃ p ∈ s, p.2 () ≠ none) →
      ∃ m : Errors, s.Validate = some (.errors m) ∧ m.keys.Nodup ∧
        (∀ k, k ∈ m.keys ↔ ∃ p ∈ s, p.1 = k ∧ p.2 () ≠ none) ∧
        m.length = (s.filter (fun p => (p.2 ()).isSome)).length ∧
        (∀ k e, (k, e) ∈ m ↔ ∃ p ∈ s, p.1 = k ∧ p.2 () = some e)) := by
  have hval := Schema.Validate_eq_failures s hno hnodup
  have hnil := Schema.failures_eq_nil s
  constructor
  · rw [hval, ← hnil]
    cases hf : Schema.failures s with
    | nil => simp
    | cons a l => simp
  · rintro ⟨p, hp, hfail⟩
    have hne : Schema.failures s ≠ [] := fun h => hfail (hnil.mp h p hp)
    have hpos : (Schema.failures s).length > 0 := List.length_pos.mpr hne
    refine ⟨Schema.failures s, ?_, ?_, ?_, Schema.failures_length s, Schema.mem_failures s⟩
    · rw [hval, if_pos hpos]
    · exact List.Nodup.sublist (Schema.failures_keys_sublist s) hnodup
    · intro k
      constructor
      · intro hk
        obtain ⟨⟨k', e⟩, he, rfl⟩ := List.mem_map.mp hk
        obtain ⟨q, hq, hqk, hqe⟩ := (Schema.mem_failures s k' e).mp he
        exact ⟨q, hq, hqk, by simp [hqe]⟩
      · rintro ⟨q, hq, hk, hqe⟩
        obtain ⟨e, he⟩ := Option.ne_none_iff_exists'.mp hqe
        exact List.mem_map.mpr ⟨(k, e), (Schema.mem_failures s k e).mpr ⟨q, hq, hk, he⟩, rfl⟩

/-- The schema of the test has distinct fields and no fatal error, so its result
is nil exactly when all its predicates return nil. -/
theorem C3_validate_aggregates_witness :
    testSchema.fields.Nodup ∧ (∀ p ∈ testSchema, returnsInternal p.2 = false) ∧
    (testSchema.Validate = none ↔ ∀ p ∈ testSchema, p.2 () = none) :=
  ⟨by decide, by decide, (C3_validate_aggregates testSchema (by decide) (by decide)).1⟩

/-- The loop returns the first `InternalError` met, when the predicates before it
return none. -/
theorem Schema.Validate.loop_internal (pre post : Schema) (field : String)
    (predicate : Predicate) (key : String) (cause : GoError) (m : Errors)
    (hpre : ∀ p ∈ pre, returnsInternal p.2 = false)
    (hpred : predicate () = some (.internal key cause)) :
    Schema.Validate.loop (pre ++ (field, predicate) :: post) m =
      .error (.internal key cause) := by
  induction pre generalizing m with
  | nil => simp [Schema.Validate.loop, hpred]
  | cons p rest ih =>
    obtain ⟨f, q⟩ := p
    have hrest : ∀ p ∈ rest, returnsInternal p.2 = false :=
      fun p hp => hpre p (List.mem_cons_of_mem _ hp)
    have hq := hpre (f, q) (List.mem_cons_self _ _)
    cases hqv : q () with
    | none =>
      simp only [List.cons_append, Schema.Validate.loop, hqv]
      exact ih m hrest
    | some e =>
      cases e with
      | internal k c => simp [returnsInternal, hqv, GoError.isInternal] at hq
      | validation c msg args =>
        simp only [List.cons_append, Schema.Validate.loop, hqv]
        exact ih _ hrest
      | errors n =>
        simp only [List.cons_append, Schema.Validate.loop, hqv]
        exact ih _ hrest
      | other msg =>
        simp only [List.cons_append, Schema.Validate.loop, hqv]
        exact ih _ hrest

/-- C4: in a schema where exactly one predicate returns an `InternalError` (key
`key`, cause `cause`) and the other predicates return nil or ordinary errors,
`Schema.Validate` returns exactly that `InternalError`, which is not an `Errors`
map, for every order `s'` in which the entries are iterated. -/
theorem C4_validate_returns_internal (pre post : Schema) (field : String)
    (predicate : Predicate) (key : String) (cause : GoError) (s' : Schema)
    (hpred : predicate () = some (.internal key cause))
    (hothers : ∀ p ∈ pre ++ post, returnsInternal p.2 = false)
    (hperm : s'.Perm (pre ++ (field, predicate) :: post)) :
    s'.Validate = some (.internal key cause) ∧
    (∀ m : Errors, s'.Validate ≠ some (.errors m)) := by
  have hmem : (field, predicate) ∈ s' :=
    hperm.symm.subset (List.mem_append_right _ (List.mem_cons_self _ _))
  obtain ⟨pre', post', rfl⟩ := List.append_of_mem hmem
  have hperm' : (pre' ++ post').Perm (pre ++ post) := by
    have h1 : ((field, predicate) :: (pre' ++ post')).Perm
        ((field, predicate) :: (pre ++ post)) :=
      (List.perm_middle.symm.trans hperm).trans List.perm_middle
    exact h1.cons_inv
  have hpre' : ∀ p ∈ pre', returnsInternal p.2 = false :=
    fun p hp => hothers p (hperm'.subset (List.mem_append_left _ hp))
  have hloop := Schema.Validate.loop_internal pre' post' field predicate key cause []
    hpre' hpred
  have hres : Schema.Validate (pre' ++ (field, predicate) :: post') =
      some (.internal key cause) := by
    simp only [Schema.Validate, hloop]
  refine ⟨hres, ?_⟩
  intro m hm
  rw [hres] at hm
  cases hm

/-- A schema with two failing fields around a fatal one, iterated in another
order, returns the fatal error. -/
theorem C4_validate_returns_internal_witness :
    Schema.Validate
      [("n", validate.Bind (7 : Int) serviceDown),
       ("age", validate.Bind (15 : Int) ((is_Int Int).Min 18).Compose),
       ("name", validate.Bind "bob" (is_String.Len 4 40).Compose)] =
      some (.internal "db" (.other "connection refused")) :=
  (C4_validate_returns_internal
    [("age", validate.Bind (15 : Int) ((is_Int Int).Min 18).Compose)]
    [("name", validate.Bind "bob" (is_String.Len 4 40).Compose)]
    "n" (validate.Bind (7 : Int) serviceDown) "db" (.other "connection refused")
    [("n", validate.Bind (7 : Int) serviceDown),
     ("age", validate.Bind (15 : Int) ((is_Int Int).Min 18).Compose),
     ("name", validate.Bind "bob" (is_String.Len 4 40).Compose)]
    rfl (by decide) (List.Perm.swap _ _ _)).1

/-- C5: on the schema whose one field binds the slice `[1]` to a validator that
returns an `InternalError`, `BindSlice` stores that error under the index `"0"` and
`Schema.Validate` returns an `Errors` map that holds it at depth two, not the
`InternalError` itself. -/
theorem C5_bindSlice_traps_internal :
    Schema.Validate [("ids", validate.BindSlice [(1 : Int)] serviceDown)] =
      some (.errors [("ids",
        .errors [("0", .internal "db" (.other "connection refused"))])]) ∧
    Schema.Validate [("ids", validate.BindSlice [(1 : Int)] serviceDown)] ≠
      some (.internal "db" (.other "connection refused")) ∧
    GoError.hasInternal (.errors [("ids",
        .errors [("0", .internal "db" (.other "connection refused"))])]) = true ∧
    Schema.Validate [("ids", validate.Bind (1 : Int) serviceDown)] =
      some (.internal "db" (.other "connection refused")) := by
  refine ⟨rfl, ?_, rfl, rfl⟩
  intro h
  have h' : Schema.Validate [("ids", validate.BindSlice [(1 : Int)] serviceDown)] =
      some (.errors [("ids",
        .errors [("0", .internal "db" (.other "connection refused"))])]) := rfl
  rw [h'] at h
  cases h

/-! ## Decimal indices -/

theorem digitValue_digitChar (k : Nat) (h : k < 10) : digitValue (Nat.digitChar k) = k := by
  interval_cases k <;> rfl

theorem readDigits_toDigitsCore (fuel : Nat) :
    ∀ (n : Nat) (ds : List Char), n < fuel →
      readDigits (Nat.toDigitsCore 10 fuel n ds) 0 = readDigits ds n := by
  induction fuel with
  | zero => intro n ds h; omega
  | succ fuel ih =>
    intro n ds h
    have hd : digitValue (Nat.digitChar (n % 10)) = n % 10 :=
      digitValue_digitChar (n % 10) (Nat.mod_lt _ (by decide))
    by_cases h0 : n / 10 = 0
    · simp only [Nat.toDigitsCore, h0, if_true]
      simp only [readDigits, List.foldl_cons, hd]
      have : n % 10 = n := by omega
      simp [this]
    · simp only [Nat.toDigitsCore, h0, if_false]
      rw [ih (n / 10) _ (by omega)]
      simp only [readDigits, List.foldl_cons, hd]
      have : 10 * (n / 10) + n % 10 = n := by omega
      rw [this]

/-- Reading the decimal numeral of `n` gives `n` back. -/
theorem readDigits_toString (n : Nat) : readDigits (toString n).data 0 = n := by
  have h := readDigits_toDigitsCore (n + 1) n [] (Nat.lt_succ_self n)
  simpa [readDigits, toString, Nat.repr, Nat.toDigits, List.asString] using h

/-- Distinct indices have distinct decimal numerals. -/
theorem toString_nat_injective (i j : Nat) (h : toString i = toString j) : i = j := by
  have hi := readDigits_toString i
  rw [h, readDigits_toString j] at hi
  exact hi.symm

/-! ## Slice binding -/

theorem sliceFailures_cons_none {T : Type} (v : Validator T) (x : T) (rest : List T)
    (idx : Nat) (h : v x = none) :
    sliceFailures v (x :: rest) idx = sliceFailures v rest (idx + 1) := by
  simp [sliceFailures, h]

theorem sliceFailures_cons_some {T : Type} (v : Validator T) (x : T) (rest : List T)
    (idx : Nat) (e : GoError) (h : v x = some e) :
    sliceFailures v (x :: rest) idx = (toString idx, e) :: sliceFailures v rest (idx + 1) := by
  simp [sliceFailures, h]

theorem sliceFailures_mem {T : Type} (v : Validator T) (xs : List T) (idx : Nat)
    (k : String) (e : GoError) :
    (k, e) ∈ sliceFailures v xs idx ↔
      ∃ i x, xs[i]? = some x ∧ k = toString (idx + i) ∧ v x = some e := by
  induction xs generalizing idx with
  | nil => simp [sliceFailures]
  | cons y rest ih =>
    have hshift : (∃ i x, rest[i]? = some x ∧ k = toString (idx + 1 + i) ∧ v x = some e) ↔
        ∃ i x, (y :: rest)[i + 1]? = some x ∧ k = toString (idx + (i + 1)) ∧ v x = some e := by
      constructor
      · rintro ⟨i, x, hx, hk, hv⟩
        exact ⟨i, x, by simpa using hx, by rw [hk]; congr 1; omega, hv⟩
      · rintro ⟨i, x, hx, hk, hv⟩
        exact ⟨i, x, by simpa using hx, by rw [hk]; congr 1; omega, hv⟩
    cases hy : v y with
    | none =>
      rw [sliceFailures_cons_none v y rest idx hy, ih (idx + 1), hshift]
      constructor
      · rintro ⟨i, x, hx, hk, hv⟩
        exact ⟨i + 1, x, hx, hk, hv⟩
      · rintro ⟨i, x, hx, hk, hv⟩
        cases i with
        | zero =>
          simp only [List.getElem?_cons_zero, Option.some.injEq] at hx
          subst hx
          rw [hy] at hv
          cases hv
        | succ i => exact ⟨i, x, hx, hk, hv⟩
    | some e' =>
      rw [sliceFailures_cons_some v y rest idx e' hy, List.mem_cons, ih (idx + 1), hshift]
      constructor
      · rintro (h | ⟨i, x, hx, hk, hv⟩)
        · simp only [Prod.mk.injEq] at h
          obtain ⟨rfl, rfl⟩ := h
          exact ⟨0, y, by simp, by simp, hy⟩
        · exact ⟨i + 1, x, hx, hk, hv⟩
      · rintro ⟨i, x, hx, hk, hv⟩
        cases i with
        | zero =>
          left
          simp only [List.getElem?_cons_zero, Option.some.injEq] at hx
          subst hx
          rw [hy] at hv
          simp only [Option.some.injEq] at hv
          subst hv
          simp [hk]
        | succ i => exact Or.inr ⟨i, x, hx, hk, hv⟩

theorem sliceFailures_keys {T : Type} (v : Validator T) (xs : List T) (idx : Nat)
    (k : String) (hk : k ∈ (sliceFailures v xs idx).keys) :
    ∃ j, idx ≤ j ∧ k = toString j := by
  obtain ⟨⟨k', e⟩, he, rfl⟩ := List.mem_map.mp hk
  obtain ⟨i, x, -, hk', -⟩ := (sliceFailures_mem v xs idx k' e).mp he
  exact ⟨idx + i, Nat.le_add_right _ _, hk'⟩

theorem sliceFailures_keys_nodup {T : Type} (v : Validator T) (xs : List T) (idx : Nat) :
    (sliceFailures v xs idx).keys.Nodup := by
  induction xs generalizing idx with
  | nil => simp [sliceFailures, Errors.keys]
  | cons y rest ih =>
    cases hy : v y with
    | none =>
      rw [sliceFailures_cons_none v y rest idx hy]
      exact ih (idx + 1)
    | some e =>
      rw [sliceFailures_cons_some v y rest idx e hy]
      simp only [Errors.keys, List.map_cons, List.nodup_cons]
      refine ⟨?_, ih (idx + 1)⟩
      intro hmem
      obtain ⟨j, hj, hk⟩ := sliceFailures_keys v rest (idx + 1) _ hmem
      have := toString_nat_injective idx j hk
      omega

theorem sliceFailures_eq_nil {T : Type} (v : Validator T) (xs : List T) (idx : Nat) :
    sliceFailures v xs idx = [] ↔ ∀ x ∈ xs, v x = none := by
  induction xs generalizing idx with
  | nil => simp [sliceFailures]
  | cons y rest ih =>
    cases hy : v y with
    | none =>
      rw [sliceFailures_cons_none v y rest idx hy]
      simp [ih, hy]
    | some e =>
      rw [sliceFailures_cons_some v y rest idx e hy]
      simp [hy]

/-- The loop of `BindSlice` extends the map by the failures of the remaining
elements, when every key of the map is the numeral of an earlier index. -/
theorem validate.BindSlice.loop_eq {T : Type} (v : Validator T) (xs : List T) (idx : Nat)
    (errs : Errors) (hkeys : ∀ k ∈ errs.keys, ∃ j, j < idx ∧ k = toString j) :
    validate.BindSlice.loop v xs idx errs = errs ++ sliceFailures v xs idx := by
  induction xs generalizing idx errs with
  | nil => simp [validate.BindSlice.loop, sliceFailures]
  | cons y rest ih =>
    cases hy : v y with
    | none =>
      rw [sliceFailures_cons_none v y rest idx hy]
      simp only [validate.BindSlice.loop, Validator.Evaluate, hy]
      apply ih
      intro k hk
      obtain ⟨j, hj, hkj⟩ := hkeys k hk
      exact ⟨j, by omega, hkj⟩
    | some e =>
      rw [sliceFailures_cons_some v y rest idx e hy]
      simp only [validate.BindSlice.loop, Validator.Evaluate, hy]
      have hnot : toString idx ∉ errs.keys := by
        intro hmem
        obtain ⟨j, hj, hkj⟩ := hkeys _ hmem
        have := toString_nat_injective idx j hkj
        omega
      rw [Errors.set_of_not_mem errs _ e hnot, ih]
      · simp
      · intro k hk
        rw [Errors.keys_append] at hk
        rcases List.mem_append.mp hk with hk | hk
        · obtain ⟨j, hj, hkj⟩ := hkeys k hk
          exact ⟨j, by omega, hkj⟩
        · simp only [Errors.keys, List.map_cons, List.map_nil, List.mem_singleton] at hk
          exact ⟨idx, by omega, hk⟩

theorem validate.BindSlice_eq {T : Type} (xs : List T) (v : Validator T) :
    validate.BindSlice xs v () =
      if (sliceFailures v xs 0).length > 0 then some (.errors (sliceFailures v xs 0))
      else none := by
  have h := validate.BindSlice.loop_eq v xs 0 [] (by simp [Errors.keys])
  simp only [validate.BindSlice, h, List.nil_append]

/-- C6: the predicate `BindSlice(xs, v)` returns nil if and only if `v` returns nil
on every element of `xs` (so it does on the empty sequence), and otherwise returns
an `Errors` map with distinct keys whose entries are exactly the pairs of the
decimal numeral of a zero-based index `i` with `v(xs[i])` non-nil and that error;
`BindSlice([1,2,3], Choose(9))` gives the keys `"0"`, `"1"`, `"2"` with
`integer_choose` errors whose `val` is 1, 2, 3. -/
theorem C6_bindSlice_indexed_errors {T : Type} (xs : List T) (v : Validator T) :
    (validate.BindSlice xs v () = none ↔ ∀ x ∈ xs, v x = none) ∧
    validate.BindSlice ([] : List T) v () = none ∧
    ((∃ x ∈ xs, v x ≠ none) →
      ∃ m : Errors, validate.BindSlice xs v () = some (.errors m) ∧ m.keys.Nodup ∧
        (∀ k, k ∈ m.keys ↔ ∃ (i : Nat) (x : T), xs[i]? = some x ∧ k = toString i ∧ v x ≠ none) ∧
        (∀ k e, (k, e) ∈ m ↔ ∃ (i : Nat) (x : T), xs[i]? = some x ∧ k = toString i ∧ v x = some e)) ∧
    validate.BindSlice [(1 : Int), 2, 3] ((is_Int Int).Choose [9]).Compose () =
      some (.errors
        [("0", .validation "integer_choose" "must be one of [9]"
            [("choices", .ints [9]), ("val", .int 1)]),
         ("1", .validation "integer_choose" "must be one of [9]"
            [("choices", .ints [9]), ("val", .int 2)]),
         ("2", .validation "integer_choose" "must be one of [9]"
            [("choices", .ints [9]), ("val", .int 3)])]) := by
  have hval := validate.BindSlice_eq xs v
  have hnil := sliceFailures_eq_nil v xs 0
  have hmem : ∀ k e, (k, e) ∈ sliceFailures v xs 0 ↔
      ∃ (i : Nat) (x : T), xs[i]? = some x ∧ k = toString i ∧ v x = some e := by
    intro k e
    have h := sliceFailures_mem v xs 0 k e
    simpa using h
  refine ⟨?_, rfl, ?_, rfl⟩
  · rw [hval, ← hnil]
    cases hf : sliceFailures v xs 0 with
    | nil => simp
    | cons a l => simp
  · rintro ⟨x, hx, hfail⟩
    have hne : sliceFailures v xs 0 ≠ [] := fun h => hfail (hnil.mp h x hx)
    have hpos : (sliceFailures v xs 0).length > 0 := List.length_pos.mpr hne
    refine ⟨sliceFailures v xs 0, ?_, sliceFailures_keys_nodup v xs 0, ?_, hmem⟩
    · rw [hval, if_pos hpos]
    · intro k
      constructor
      · intro hk
        obtain ⟨⟨k', e⟩, he, rfl⟩ := List.mem_map.mp hk
        obtain ⟨i, y, hy, hki, hve⟩ := (hmem k' e).mp he
        exact ⟨i, y, hy, hki, by simp [hve]⟩
      · rintro ⟨i, y, hy, hki, hve⟩
        obtain ⟨e, he⟩ := Option.ne_none_iff_exists'.mp hve
        exact List.mem_map.mpr ⟨(k, e), (hmem k e).mpr ⟨i, y, hy, hki, he⟩, rfl⟩

/-! ## The constraint library -/

theorem compose_identity_apply {T : Type} (next : Validator T) (x : T) :
    (compose (Identity : Composer T) next) nop x = next x := by
  simp only [compose, mergeValidator, mergeValidator.loop, Identity, nop]
  cases next x <;> rfl

/-- C7: `String().Len(min,max).Compose()` returns nil on `s` if and only if
(`min <= 0` or `len(s) >= min`) and (`max <= 0` or `len(s) <= max`), `len(s)`
being the byte length the code measures; with both bounds non-positive it
returns nil on every string. -/
theorem C7_len_boundary (min max : Int) (s : String) :
    ((is_String.Len min max).Compose s = none ↔
      (min ≤ 0 ∨ (s.utf8ByteSize : Int) ≥ min) ∧ (max ≤ 0 ∨ (s.utf8ByteSize : Int) ≤ max)) ∧
    (min ≤ 0 → max ≤ 0 → (is_String.Len min max).Compose s = none) := by
  have h : (is_String.Len min max).Compose s = strLen min max s :=
    compose_identity_apply (strLen min max) s
  have hiff : strLen min max s = none ↔
      (min ≤ 0 ∨ (s.utf8ByteSize : Int) ≥ min) ∧
        (max ≤ 0 ∨ (s.utf8ByteSize : Int) ≤ max) := by
    unfold strLen
    by_cases h1 : min > 0 ∧ min > (s.utf8ByteSize : Int)
    · simp only [h1, and_self, if_true]
      constructor
      · intro h; cases h
      · rintro ⟨h2, -⟩; omega
    · by_cases h2 : max > 0 ∧ max < (s.utf8ByteSize : Int)
      · simp only [h1, h2, and_self, if_true, if_false]
        constructor
        · intro h; cases h
        · rintro ⟨-, h3⟩; omega
      · simp only [h1, h2, if_false, true_iff]
        constructor <;> omega
  rw [h]
  refine ⟨hiff, ?_⟩
  intro hmin hmax
  exact hiff.mpr ⟨Or.inl hmin, Or.inl hmax⟩

theorem IntType.sub_one_of_gt_min (T : IntType) (hT : T ∈ Integers) (k : Int)
    (hk : T.inRange k) (hmin : k ≠ T.minVal) : T.sub k 1 = k - 1 := by
  simp only [Integers, List.mem_cons, List.mem_singleton, List.not_mem_nil, or_false] at hT
  rcases hT with rfl | rfl | rfl | rfl | rfl | rfl | rfl | rfl | rfl | rfl <;>
    simp [IntType.inRange, IntType.minVal, IntType.maxVal] at hk hmin <;>
    simp [IntType.sub, IntType.wrap] <;> omega

/-- C8, amended: for every integer type `T` of `Integers` and every `k` of type
`T`, `Int[T]().Min(k).Compose()` returns nil on `k`; and when `k` is not the least
value of `T`, `k-1` computed in `T` is the integer `k-1` and the validator returns
on it the `integer_min` error whose args are `min` equal to `k` and `val` equal to
`k-1`. -/
theorem C8_min_boundary (T : IntType) (hT : T ∈ Integers) (k : Int) (hk : T.inRange k) :
    ((is_Int Int).Min k).Compose k = none ∧
    (k ≠ T.minVal →
      T.sub k 1 = k - 1 ∧
      ((is_Int Int).Min k).Compose (T.sub k 1) =
        some (.validation "integer_min" ("must be greater than or equal to " ++ toString k)
          [("min", .int k), ("val", .int (k - 1))])) := by
  have h : ∀ n, ((is_Int Int).Min k).Compose n = minimum "integer_min" k n :=
    fun n => compose_identity_apply (minimum "integer_min" k) n
  refine ⟨?_, ?_⟩
  · rw [h]
    simp [minimum_int]
  · intro hmin
    have hsub := IntType.sub_one_of_gt_min T hT k hk hmin
    refine ⟨hsub, ?_⟩
    rw [h, hsub]
    simp [minimum_int, NewError]

/-- At the type `int16` and `k = 18`, which is not the least value: `Min(18)`
accepts 18 and rejects 17 with `min` 18 and `val` 17. -/
theorem C8_min_boundary_witness :
    (⟨true, 16⟩ : IntType) ∈ Integers ∧ IntType.inRange ⟨true, 16⟩ 18 ∧
    (18 : Int) ≠ IntType.minVal ⟨true, 16⟩ ∧
    ((is_Int Int).Min 18).Compose 18 = none ∧
    IntType.sub ⟨true, 16⟩ 18 1 = 18 - 1 ∧
    ((is_Int Int).Min 18).Compose (IntType.sub ⟨true, 16⟩ 18 1) =
      some (.validation "integer_min" ("must be greater than or equal to " ++ toString (18 : Int))
        [("min", .int 18), ("val", .int (18 - 1))]) :=
  ⟨by decide, by decide, by decide,
    (C8_min_boundary ⟨true, 16⟩ (by decide) 18 (by decide)).1,
    (C8_min_boundary ⟨true, 16⟩ (by decide) 18 (by decide)).2 (by decide)⟩

/-- C8, as stated, fails at the least value of a type: in `int8`, `-128 - 1` wraps
around to 127 and `Min(-128)` returns nil on it; in `uint8`, `0 - 1` wraps around
to 255 and `Min(0)` returns nil on it. -/
theorem C8_min_boundary_counterexample :
    ((⟨true, 8⟩ : IntType) ∈ Integers ∧ IntType.inRange ⟨true, 8⟩ (-128) ∧
      IntType.sub ⟨true, 8⟩ (-128) 1 = 127 ∧
      ((is_Int Int).Min (-128)).Compose (IntType.sub ⟨true, 8⟩ (-128) 1) = none) ∧
    ((⟨false, 8⟩ : IntType) ∈ Integers ∧ IntType.inRange ⟨false, 8⟩ 0 ∧
      IntType.sub ⟨false, 8⟩ 0 1 = 255 ∧
      ((is_Int Int).Min 0).Compose (IntType.sub ⟨false, 8⟩ 0 1) = none) :=
  ⟨⟨by decide, by decide, by decide, rfl⟩, ⟨by decide, by decide, by decide, rfl⟩⟩

theorem choose.loop_eq_true (n : Int) (choices : List Int) :
    choose.loop n choices = true ↔ n ∈ choices := by
  induction choices with
  | nil => simp [choose.loop]
  | cons c rest ih =>
    by_cases hc : c = n
    · simp [choose.loop, Number.eq, hc]
    · have hc' : ¬ n = c := fun h => hc h.symm
      simp [choose.loop, Number.eq, hc, hc', ih]

/-- C9: `Int().Choose(cs...).Compose()` returns nil on `v` if and only if `v` is an
element of `cs`; with the empty choice set it returns an error on every `v`, and
`Choose(a,b)` returns nil on `a`. -/
theorem C9_choose_law (cs : List Int) (v : Int) :
    (((is_Int Int).Choose cs).Compose v = none ↔ v ∈ cs) ∧
    ((is_Int Int).Choose []).Compose v ≠ none ∧
    (∀ b : Int, ((is_Int Int).Choose [v, b]).Compose v = none) := by
  have h : ∀ (l : List Int) (n : Int),
      ((is_Int Int).Choose l).Compose n = choose "integer_choose" l n :=
    fun l n => compose_identity_apply (choose "integer_choose" l) n
  have hiff : ∀ l : List Int, choose "integer_choose" l v = none ↔ v ∈ l := by
    intro l
    rw [← choose.loop_eq_true v l]
    rw [choose_int]
    cases choose.loop v l <;> simp
  refine ⟨?_, ?_, ?_⟩
  · rw [h]; exact hiff cs
  · rw [h]
    intro hnone
    have := (hiff []).mp hnone
    simp at this
  · intro b
    rw [h]
    exact (hiff [v, b]).mpr (by simp)

/-- C10: the validators of the chains without constraint, `String().Compose()`,
`Int[T]().Compose()` and `Float[T]().Compose()`, return nil on every value. -/
theorem C10_empty_chain :
    (∀ s : String, is_String.Compose s = none) ∧
    (∀ (T : Type) (x : T), (is_Int T).Compose x = none) ∧
    (∀ (T : Type) (x : T), (is_Float T).Compose x = none) :=
  ⟨fun _ => rfl, fun _ _ => rfl, fun _ _ => rfl⟩

theorem minimum_apply {T : Type} [Number T] (c : String) (m v : T) :
    (minimum c m v = none ↔ Number.lt v m = false) ∧
    (Number.lt v m = true → minimum c m v =
      some (.validation c ("must be greater than or equal to " ++ Number.fmtV m)
        [("min", Number.box m), ("val", Number.box v)])) := by
  cases h : Number.lt v m <;> simp [minimum, NewError, h]

theorem minimum_eq_some_of {T : Type} [Number T] (c : String) (m v : T) (e : GoError)
    (h : minimum c m v = some e) :
    e = .validation c ("must be greater than or equal to " ++ Number.fmtV m)
      [("min", Number.box m), ("val", Number.box v)] := by
  cases hlt : Number.lt v m with
  | true =>
    simp only [minimum, hlt, if_true, NewError, Option.some.injEq] at h
    exact h.symm
  | false => simp [minimum, hlt] at h

theorem maximum_eq_some_of {T : Type} [Number T] (c : String) (m v : T) (e : GoError)
    (h : maximum c m v = some e) :
    e = .validation c ("must be less than or equal to " ++ Number.fmtV m)
      [("max", Number.box m), ("val", Number.box v)] := by
  cases hlt : Number.lt m v with
  | true =>
    simp only [maximum, hlt, if_true, NewError, Option.some.injEq] at h
    exact h.symm
  | false => simp [maximum, hlt] at h

theorem choose_eq_some_of {T : Type} [Number T] (c : String) (cs : List T) (v : T)
    (e : GoError) (h : choose c cs v = some e) :
    e = .validation c ("must be one of " ++ fmtSlice cs)
      [("choices", Number.boxSlice cs), ("val", Number.box v)] := by
  unfold choose at h
  cases hl : choose.loop v cs with
  | true => simp [hl] at h
  | false =>
    simp only [hl, Bool.false_eq_true, if_false, NewError, Option.some.injEq] at h
    exact h.symm

/-- C11, amended: at every integer type without formatting method (its `%v` is the
decimal numeral) and for all `m` and `v` of the type, `Int().Min(m).Compose()`
returns nil on `v` if and only if `v >= m`, and when `v < m` it returns exactly the
validation error of tag `integer_min` (not `float_min`), of message
`must be greater than or equal to` followed by the decimal numeral of `m`, and of
args `min` equal to `m` and `val` equal to `v`; `Min(18)` on 15 gives
`integer_min` with `min` 18 and `val` 15. At every type argument, with or without
formatting method, the validator returns nil exactly when `v < m` is false, and
otherwise the error of tag `integer_min` whose message ends with what `%v` prints
for `m`. -/
theorem C11_int_min_error (m v : Int) :
    (((is_Int Int).Min m).Compose v = none ↔ v ≥ m) ∧
    (v < m → ((is_Int Int).Min m).Compose v =
      some (.validation "integer_min" ("must be greater than or equal to " ++ toString m)
        [("min", .int m), ("val", .int v)])) ∧
    (∀ msg args, ((is_Int Int).Min m).Compose v ≠ some (.validation "float_min" msg args)) ∧
    ((is_Int Int).Min 18).Compose 15 =
      some (.validation "integer_min" "must be greater than or equal to 18"
        [("min", .int 18), ("val", .int 15)]) ∧
    (∀ (T : Type) [Number T] (a b : T),
      (((is_Int T).Min a).Compose b = none ↔ Number.lt b a = false) ∧
      (Number.lt b a = true → ((is_Int T).Min a).Compose b =
        some (.validation "integer_min"
          ("must be greater than or equal to " ++ Number.fmtV a)
          [("min", Number.box a), ("val", Number.box b)]))) := by
  have hgen : ∀ (T : Type) [Number T] (a b : T),
      (((is_Int T).Min a).Compose b = none ↔ Number.lt b a = false) ∧
      (Number.lt b a = true → ((is_Int T).Min a).Compose b =
        some (.validation "integer_min"
          ("must be greater than or equal to " ++ Number.fmtV a)
          [("min", Number.box a), ("val", Number.box b)])) := by
    intro T _ a b
    have h : ((is_Int T).Min a).Compose b = minimum "integer_min" a b :=
      compose_identity_apply (minimum "integer_min" a) b
    rw [h]
    exact minimum_apply "integer_min" a b
  have h : ((is_Int Int).Min m).Compose v = minimum "integer_min" m v :=
    compose_identity_apply (minimum "integer_min" m) v
  rw [h]
  refine ⟨?_, ?_, ?_, rfl, hgen⟩
  · by_cases hlt : v < m
    · simp only [minimum_int, hlt, if_true]
      constructor
      · intro hn; cases hn
      · intro hge; omega
    · simp only [minimum_int, hlt, if_false, true_iff]
      omega
  · intro hlt
    simp [minimum_int, hlt, NewError]
  · intro msg args
    by_cases hlt : v < m
    · simp only [minimum_int, hlt, if_true, NewError]
      intro heq
      have hc := (GoError.validation.inj (Option.some.inj heq)).1
      exact absurd hc (by decide)
    · simp [minimum_int, hlt]

/-- C11, as stated for every integer type, fails at the named type `time.Weekday`,
whose `String` method `%v` calls: `Int[time.Weekday]().Min(time.Monday)` rejects
`time.Sunday` with the message `must be greater than or equal to Monday`, which is
not the message with the decimal numeral 1 of the bound. -/
theorem C11_int_min_error_counterexample :
    ((is_Int Weekday).Min ⟨1⟩).Compose ⟨0⟩ =
      some (.validation "integer_min" "must be greater than or equal to Monday"
        [("min", .int 1), ("val", .int 0)]) ∧
    ((is_Int Weekday).Min ⟨1⟩).Compose ⟨0⟩ ≠
      some (.validation "integer_min"
        ("must be greater than or equal to " ++ toString (1 : Int))
        [("min", .int 1), ("val", .int 0)]) := by
  have h : ((is_Int Weekday).Min ⟨1⟩).Compose ⟨0⟩ =
      some (.validation "integer_min" "must be greater than or equal to Monday"
        [("min", .int 1), ("val", .int 0)]) := rfl
  refine ⟨h, ?_⟩
  rw [h]
  intro heq
  have hmsg := (GoError.validation.inj (Option.some.inj heq)).2.1
  exact absurd hmsg (by decide)

theorem minimum_eq_some (c : String) (m v : Int) (e : GoError) (h : minimum c m v = some e) :
    v < m ∧ e = .validation c ("must be greater than or equal to " ++ toString m)
      [("min", .int m), ("val", .int v)] := by
  by_cases hlt : v < m
  · simp only [minimum_int, hlt, if_true, NewError, Option.some.injEq] at h
    exact ⟨hlt, h.symm⟩
  · simp [minimum_int, hlt] at h

theorem maximum_eq_some (c : String) (m v : Int) (e : GoError) (h : maximum c m v = some e) :
    m < v ∧ e = .validation c ("must be less than or equal to " ++ toString m)
      [("max", .int m), ("val", .int v)] := by
  by_cases hlt : m < v
  · simp only [maximum_int, hlt, if_true, NewError, Option.some.injEq] at h
    exact ⟨hlt, h.symm⟩
  · simp [maximum_int, hlt] at h

theorem choose_eq_some (c : String) (cs : List Int) (v : Int) (e : GoError)
    (h : choose c cs v = some e) :
    e = .validation c ("must be one of " ++ fmtSlice cs)
      [("choices", .ints cs), ("val", .int v)] := by
  rw [choose_int] at h
  cases hl : choose.loop v cs with
  | true => simp [hl] at h
  | false =>
    simp only [hl, Bool.false_eq_true, if_false, NewError, Option.some.injEq] at h
    exact h.symm

theorem strLen_eq_some (min max : Int) (s : String) (e : GoError)
    (h : strLen min max s = some e) :
    (min > 0 ∧ min > (s.utf8ByteSize : Int) ∧
      e = .validation "string_len" ("must be at least " ++ toString min ++ " characters")
        [("min", .int min), ("max", .int max), ("len", .int (s.utf8ByteSize : Int))]) ∨
    (¬ (min > 0 ∧ min > (s.utf8ByteSize : Int)) ∧ max > 0 ∧ max < (s.utf8ByteSize : Int) ∧
      e = .validation "string_len" ("must be at most " ++ toString max ++ " characters")
        [("min", .int min), ("max", .int max), ("len", .int (s.utf8ByteSize : Int))]) := by
  unfold strLen at h
  by_cases h1 : min > 0 ∧ min > (s.utf8ByteSize : Int)
  · simp only [h1, and_self, if_true, NewError, Option.some.injEq] at h
    exact Or.inl ⟨h1.1, h1.2, h.symm⟩
  · by_cases h2 : max > 0 ∧ max < (s.utf8ByteSize : Int)
    · simp only [h1, h2, and_self, if_true, if_false, NewError, Option.some.injEq] at h
      exact Or.inr ⟨h1, h2.1, h2.2, h.symm⟩
    · simp [h1, h2] at h

theorem notBlank_eq_some (s : String) (e : GoError) (h : notBlank s = some e) :
    s = "" ∧ e = .validation "string_not_blank" "must not be blank" [] := by
  unfold notBlank at h
  by_cases hs : "" = s
  · simp only [hs, if_true, NewError, Option.some.injEq] at h
    exact ⟨hs.symm, h.symm⟩
  · simp [hs] at h

theorem email_eq_some (s : String) (e : GoError) (h : email s = some e) :
    regexEmail.MatchString s = false ∧
      e = .validation "string_email" "must be a valid email address" [] := by
  unfold email at h
  cases hm : regexEmail.MatchString s with
  | true => simp [hm] at h
  | false =>
    simp only [hm, Bool.not_false, if_true, NewError, Option.some.injEq] at h
    exact ⟨rfl, h.symm⟩

/-- C12, amended: when a constraint validator of the library fails on a value, its
validation error is as follows. For `Min`, `Max` and `Choose`, of `Int[T]` and of
`Float[T]` at every type argument, the args map holds the parameter of the rule
(`min`, `max`, `choices`) and the offending value under the key `val`; the values
are stored as integers at the integer types and as floating-point numbers at the
floating-point types. For `Len` the args map holds `min`, `max` and the measured
length under the key `len`, and nothing under `val`. For `NotBlank`,
`NotBlankTrim` and `Email` the error has no args. -/
theorem C12_error_args :
    (∀ (T : Type) [Number T] (m v : T) (e : GoError),
      ((is_Int T).Min m).Compose v = some e →
      ∃ msg, e = .validation "integer_min" msg
        [("min", Number.box m), ("val", Number.box v)]) ∧
    (∀ (T : Type) [Number T] (m v : T) (e : GoError),
      ((is_Int T).Max m).Compose v = some e →
      ∃ msg, e = .validation "integer_max" msg
        [("max", Number.box m), ("val", Number.box v)]) ∧
    (∀ (T : Type) [Number T] (cs : List T) (v : T) (e : GoError),
      ((is_Int T).Choose cs).Compose v = some e →
      ∃ msg, e = .validation "integer_choose" msg
        [("choices", Number.boxSlice cs), ("val", Number.box v)]) ∧
    (∀ (T : Type) [Number T] (m v : T) (e : GoError),
      ((is_Float T).Min m).Compose v = some e →
      ∃ msg, e = .validation "float_min" msg
        [("min", Number.box m), ("val", Number.box v)]) ∧
    (∀ (T : Type) [Number T] (m v : T) (e : GoError),
      ((is_Float T).Max m).Compose v = some e →
      ∃ msg, e = .validation "float_max" msg
        [("max", Number.box m), ("val", Number.box v)]) ∧
    (∀ (T : Type) [Number T] (cs : List T) (v : T) (e : GoError),
      ((is_Float T).Choose cs).Compose v = some e →
      ∃ msg, e = .validation "float_choose" msg
        [("choices", Number.boxSlice cs), ("val", Number.box v)]) ∧
    ((∀ n : Int, Number.box n = ArgVal.int n) ∧
      (∀ ns : List Int, Number.boxSlice ns = ArgVal.ints ns) ∧
      (∀ (fmtG : Float → String) (x : Float), (floatNumber fmtG).box x = ArgVal.float x) ∧
      (∀ (fmtG : Float → String) (xs : List Float),
        (floatNumber fmtG).boxSlice xs = ArgVal.floats xs)) ∧
    (∀ (min max : Int) (s : String) (e : GoError), (is_String.Len min max).Compose s = some e →
      (∃ msg, e = .validation "string_len" msg
        [("min", .int min), ("max", .int max), ("len", .int (s.utf8ByteSize : Int))]) ∧
      "val" ∉ e.argKeys) ∧
    (∀ (s : String) (e : GoError), is_String.NotBlank.Compose s = some e →
      e = .validation "string_not_blank" "must not be blank" []) ∧
    (∀ (s : String) (e : GoError), is_String.NotBlankTrim.Compose s = some e →
      e = .validation "string_not_blank" "must not be blank" []) ∧
    (∀ (s : String) (e : GoError), is_String.Email.Compose s = some e →
      e = .validation "string_email" "must be a valid email address" []) := by
  refine ⟨?_, ?_, ?_, ?_, ?_, ?_, ⟨fun _ => rfl, fun _ => rfl, fun _ _ => rfl, fun _ _ => rfl⟩,
    ?_, ?_, ?_, ?_⟩
  · intro T _ m v e h
    have h' : minimum "integer_min" m v = some e :=
      (compose_identity_apply (minimum "integer_min" m) v).symm.trans h
    exact ⟨_, minimum_eq_some_of _ m v e h'⟩
  · intro T _ m v e h
    have h' : maximum "integer_max" m v = some e :=
      (compose_identity_apply (maximum "integer_max" m) v).symm.trans h
    exact ⟨_, maximum_eq_some_of _ m v e h'⟩
  · intro T _ cs v e h
    have h' : choose "integer_choose" cs v = some e :=
      (compose_identity_apply (choose "integer_choose" cs) v).symm.trans h
    exact ⟨_, choose_eq_some_of _ cs v e h'⟩
  · intro T _ m v e h
    have h' : minimum "float_min" m v = some e :=
      (compose_identity_apply (minimum "float_min" m) v).symm.trans h
    exact ⟨_, minimum_eq_some_of _ m v e h'⟩
  · intro T _ m v e h
    have h' : maximum "float_max" m v = some e :=
      (compose_identity_apply (maximum "float_max" m) v).symm.trans h
    exact ⟨_, maximum_eq_some_of _ m v e h'⟩
  · intro T _ cs v e h
    have h' : choose "float_choose" cs v = some e :=
      (compose_identity_apply (choose "float_choose" cs) v).symm.trans h
    exact ⟨_, choose_eq_some_of _ cs v e h'⟩
  · intro min max s e h
    have h' : strLen min max s = some e :=
      (compose_identity_apply (strLen min max) s).symm.trans h
    rcases strLen_eq_some min max s e h' with ⟨-, -, rfl⟩ | ⟨-, -, -, rfl⟩
    · exact ⟨⟨_, rfl⟩, by simp [GoError.argKeys]⟩
    · exact ⟨⟨_, rfl⟩, by simp [GoError.argKeys]⟩
  · intro s e h
    have h' : notBlank s = some e := (compose_identity_apply notBlank s).symm.trans h
    exact (notBlank_eq_some s e h').2
  · intro s e h
    have h' : notBlank (TrimSpace s) = some e :=
      (compose_identity_apply notBlankTrim s).symm.trans h
    exact (notBlank_eq_some _ e h').2
  · intro s e h
    have h' : email s = some e := (compose_identity_apply email s).symm.trans h
    exact (email_eq_some s e h').2

/-- C12, as stated, fails on the string constraints: the error of `NotBlank` on the
empty string has no args at all, and the args of the error of `Len(4,40)` on
`"bob"` hold the length under `len` and nothing under `val`. -/
theorem C12_error_args_counterexample :
    (is_String.NotBlank.Compose "" =
        some (.validation "string_not_blank" "must not be blank" []) ∧
      "val" ∉ GoError.argKeys (.validation "string_not_blank" "must not be blank" [])) ∧
    ((is_String.Len 4 40).Compose "bob" =
        some (.validation "string_len" "must be at least 4 characters"
          [("min", .int 4), ("max", .int 40), ("len", .int 3)]) ∧
      "val" ∉ GoError.argKeys (.validation "string_len" "must be at least 4 characters"
          [("min", .int 4), ("max", .int 40), ("len", .int 3)])) :=
  ⟨⟨rfl, by decide⟩, ⟨rfl, by decide⟩⟩

/-! ## Invariants of the aggregator -/

/-- An error returned early by the loop is an `InternalError` that one of the
predicates returned. -/
theorem Schema.Validate.loop_error (s : Schema) (m : Errors) (e : GoError)
    (h : Schema.Validate.loop s m = .error e) :
    ∃ key cause, e = .internal key cause ∧ ∃ p ∈ s, p.2 () = some (.internal key cause) := by
  induction s generalizing m with
  | nil => simp [Schema.Validate.loop] at h
  | cons p rest ih =>
    obtain ⟨field, predicate⟩ := p
    have lift : (∃ key cause, e = .internal key cause ∧
        ∃ p ∈ rest, p.2 () = some (.internal key cause)) →
        ∃ key cause, e = .internal key cause ∧
          ∃ p ∈ (field, predicate) :: rest, p.2 () = some (.internal key cause) := by
      rintro ⟨key, cause, he, q, hq, hqv⟩
      exact ⟨key, cause, he, q, List.mem_cons_of_mem _ hq, hqv⟩
    cases hp : predicate () with
    | none =>
      simp only [Schema.Validate.loop, hp] at h
      exact lift (ih m h)
    | some err =>
      cases err with
      | internal key cause =>
        simp only [Schema.Validate.loop, hp, Except.error.injEq] at h
        exact ⟨key, cause, h.symm, (field, predicate), List.mem_cons_self _ _, hp⟩
      | validation c msg args =>
        simp only [Schema.Validate.loop, hp] at h
        exact lift (ih _ h)
      | errors n =>
        simp only [Schema.Validate.loop, hp] at h
        exact lift (ih _ h)
      | other msg =>
        simp only [Schema.Validate.loop, hp] at h
        exact lift (ih _ h)

/-- C13: `Schema.Validate` returns nil, or an `InternalError` that one of the
predicates returned, or an `Errors` map with at least one entry; a predicate built
by `BindSlice` returns nil or an `Errors` map with at least one entry. Neither
returns an empty `Errors` map. -/
theorem C13_nonempty_aggregate :
    (∀ s : Schema,
      (s.Validate = none ∨
        (∃ key cause, s.Validate = some (.internal key cause) ∧
          ∃ p ∈ s, p.2 () = some (.internal key cause)) ∨
        (∃ m : Errors, s.Validate = some (.errors m) ∧ 0 < m.length)) ∧
      s.Validate ≠ some (.errors [])) ∧
    (∀ (T : Type) (xs : List T) (v : Validator T),
      (validate.BindSlice xs v () = none ∨
        (∃ m : Errors, validate.BindSlice xs v () = some (.errors m) ∧ 0 < m.length)) ∧
      validate.BindSlice xs v () ≠ some (.errors [])) := by
  constructor
  · intro s
    cases hl : Schema.Validate.loop s [] with
    | error e =>
      obtain ⟨key, cause, rfl, hp⟩ := Schema.Validate.loop_error s [] e hl
      have hv : s.Validate = some (.internal key cause) := by
        simp only [Schema.Validate, hl]
      refine ⟨Or.inr (Or.inl ⟨key, cause, hv, hp⟩), ?_⟩
      rw [hv]
      intro h
      cases h
    | ok m =>
      by_cases hm : m.length > 0
      · have hv : s.Validate = some (.errors m) := by
          simp only [Schema.Validate, hl, hm, if_true]
        refine ⟨Or.inr (Or.inr ⟨m, hv, hm⟩), ?_⟩
        rw [hv]
        intro h
        have hmm : m = [] := GoError.errors.inj (Option.some.inj h)
        rw [hmm] at hm
        exact absurd hm (by simp)
      · have hv : s.Validate = none := by
          simp only [Schema.Validate, hl, hm, if_false]
        refine ⟨Or.inl hv, ?_⟩
        rw [hv]
        intro h
        cases h
  · intro T xs v
    by_cases hm : (validate.BindSlice.loop v xs 0 []).length > 0
    · have hv : validate.BindSlice xs v () =
          some (.errors (validate.BindSlice.loop v xs 0 [])) := by
        simp only [validate.BindSlice, hm, if_true]
      refine ⟨Or.inr ⟨_, hv, hm⟩, ?_⟩
      rw [hv]
      intro h
      have hmm := GoError.errors.inj (Option.some.inj h)
      rw [hmm] at hm
      exact absurd hm (by simp)
    · have hv : validate.BindSlice xs v () = none := by
        simp only [validate.BindSlice, hm, if_false]
      refine ⟨Or.inl hv, ?_⟩
      rw [hv]
      intro h
      cases h

theorem returnsInternal_eq_true (p : Predicate) (h : returnsInternal p = true) :
    ∃ key cause, p () = some (.internal key cause) := by
  unfold returnsInternal at h
  cases hp : p () with
  | none => simp [hp] at h
  | some e =>
    cases e with
    | internal key cause => exact ⟨key, cause, rfl⟩
    | validation c msg args => simp [hp, GoError.isInternal] at h
    | errors n => simp [hp, GoError.isInternal] at h
    | other msg => simp [hp, GoError.isInternal] at h

/-- A schema with at most one predicate returning an `InternalError` has none, or
splits around the one that does. -/
theorem Schema.split_of_at_most_one (s : Schema)
    (h : (s.filter (fun p => returnsInternal p.2)).length ≤ 1) :
    (∀ p ∈ s, returnsInternal p.2 = false) ∨
    ∃ pre x post, s = pre ++ x :: post ∧ returnsInternal x.2 = true ∧
      ∀ p ∈ pre ++ post, returnsInternal p.2 = false := by
  induction s with
  | nil => left; simp
  | cons q rest ih =>
    cases hq : returnsInternal q.2 with
    | true =>
      right
      simp only [List.filter_cons, hq, if_true, List.length_cons] at h
      have hnil : rest.filter (fun p => returnsInternal p.2) = [] :=
        List.length_eq_zero.mp (by omega)
      refine ⟨[], q, rest, rfl, hq, ?_⟩
      intro p hp
      simp only [List.nil_append] at hp
      have := List.filter_eq_nil_iff.mp hnil p hp
      simpa using this
    | false =>
      simp only [List.filter_cons, hq, Bool.false_eq_true, if_false] at h
      rcases ih h with hall | ⟨pre, x, post, rfl, hx, hothers⟩
      · left
        intro p hp
        rcases List.mem_cons.mp hp with rfl | hp
        · exact hq
        · exact hall p hp
      · right
        refine ⟨q :: pre, x, post, rfl, hx, ?_⟩
        intro p hp
        simp only [List.cons_append, List.mem_cons] at hp
        rcases hp with rfl | hp
        · exact hq
        · exact hothers p hp

/-- With one predicate returning an `InternalError` and no other doing so, every
order of the entries makes `Validate` return that error. -/
theorem Schema.Validate_perm_internal (pre post : Schema) (x : String × Predicate)
    (key : String) (cause : GoError) (s' : Schema)
    (hpred : x.2 () = some (.internal key cause))
    (hothers : ∀ p ∈ pre ++ post, returnsInternal p.2 = false)
    (hperm : s'.Perm (pre ++ x :: post)) :
    s'.Validate = some (.internal key cause) := by
  obtain ⟨field, predicate⟩ := x
  have hmem : (field, predicate) ∈ s' :=
    hperm.symm.subset (List.mem_append_right _ (List.mem_cons_self _ _))
  obtain ⟨pre', post', rfl⟩ := List.append_of_mem hmem
  have hperm' : (pre' ++ post').Perm (pre ++ post) := by
    have h1 : ((field, predicate) :: (pre' ++ post')).Perm
        ((field, predicate) :: (pre ++ post)) :=
      (List.perm_middle.symm.trans hperm).trans List.perm_middle
    exact h1.cons_inv
  have hpre' : ∀ p ∈ pre', returnsInternal p.2 = false :=
    fun p hp => hothers p (hperm'.subset (List.mem_append_left _ hp))
  have hloop := Schema.Validate.loop_internal pre' post' field predicate key cause []
    hpre' hpred
  simp only [Schema.Validate, hloop]

theorem Schema.failures_perm (s s' : Schema) (hperm : s'.Perm s) :
    (Schema.failures s).Perm (Schema.failures s') := by
  unfold Schema.failures
  exact (hperm.filterMap _).symm

/-- C14: for a schema with distinct field names in which at most one predicate
returns an `InternalError`, `Schema.Validate` returns the same result for every
order `s'` in which the entries are iterated: nil in both orders, or the same
`InternalError`, or `Errors` maps with the same entries. -/
theorem C14_order_independence (s s' : Schema) (hnodup : s.fields.Nodup)
    (hone : (s.filter (fun p => returnsInternal p.2)).length ≤ 1)
    (hperm : s'.Perm s) :
    sameResult s.Validate s'.Validate := by
  rcases Schema.split_of_at_most_one s hone with hall | ⟨pre, x, post, rfl, hx, hothers⟩
  · have hall' : ∀ p ∈ s', returnsInternal p.2 = false :=
      fun p hp => hall p (hperm.subset hp)
    have hnodup' : s'.fields.Nodup := by
      have hf : (s'.map Prod.fst).Perm (s.map Prod.fst) := hperm.map _
      exact hf.nodup_iff.mpr hnodup
    have hF := Schema.failures_perm s s' hperm
    rw [Schema.Validate_eq_failures s hall hnodup, Schema.Validate_eq_failures s' hall' hnodup']
    by_cases hlen : (Schema.failures s).length > 0
    · have hlen' : (Schema.failures s').length > 0 := by rw [← hF.length_eq]; exact hlen
      rw [if_pos hlen, if_pos hlen']
      exact hF
    · have hlen' : ¬ (Schema.failures s').length > 0 := by rw [← hF.length_eq]; exact hlen
      rw [if_neg hlen, if_neg hlen']
      rfl
  · obtain ⟨key, cause, hpred⟩ := returnsInternal_eq_true x.2 hx
    have h1 := Schema.Validate_perm_internal pre post x key cause _ hpred hothers
      (List.Perm.refl _)
    have h2 := Schema.Validate_perm_internal pre post x key cause s' hpred hothers hperm
    rw [h1, h2]
    rfl

/-- The schema of the test, iterated with its first two entries exchanged, gives
the same result as in the order of the source text. -/
theorem C14_order_independence_witness :
    sameResult testSchema.Validate
      (Schema.Validate
        [("password", validate.Bind "12345" ((is_String.NotBlank).Len 6 20).Compose),
         ("name", validate.Bind "bob" ((is_String.NotBlank).Len 4 40).Compose),
         ("age", validate.Bind (15 : Int) (((is_Int Int).Min 18).Max 100).Compose),
         ("favourite_numbers",
            validate.BindSlice [(1 : Int), 2, 3, 4, 5]
              ((is_Int Int).Choose [17, 19]).Compose)]) :=
  C14_order_independence testSchema _ (by decide) (by decide) (List.Perm.swap _ _ _)

/-! ## String constraints -/

theorem dropWhile_all_iff {α : Type} (p : α → Bool) (l : List α) :
    (∀ x ∈ l.dropWhile p, p x = true) ↔ ∀ x ∈ l, p x = true := by
  induction l with
  | nil => simp
  | cons a t ih =>
    cases ha : p a with
    | true =>
      simp only [List.dropWhile_cons, ha, if_true, List.mem_cons, forall_eq_or_imp, true_and]
      exact ih
    | false =>
      simp only [List.dropWhile_cons, ha, Bool.false_eq_true, if_false, List.mem_cons,
        forall_eq_or_imp, false_and]

/-- The trimmed string is empty exactly when every character is white space. -/
theorem TrimSpace_eq_empty (s : String) :
    TrimSpace s = "" ↔ ∀ c ∈ s.data, isSpace c = true := by
  have h1 : TrimSpace s = "" ↔
      ((s.data.dropWhile isSpace).reverse.dropWhile isSpace).reverse = [] := by
    unfold TrimSpace
    constructor
    · intro h
      exact congrArg String.data h
    · intro h
      rw [h]
  rw [h1, List.reverse_eq_nil_iff, List.dropWhile_eq_nil_iff]
  constructor
  · intro h
    apply (dropWhile_all_iff isSpace s.data).mp
    intro x hx
    exact h x (List.mem_reverse.mpr hx)
  · intro h x hx
    exact (dropWhile_all_iff isSpace s.data).mpr h x (List.mem_reverse.mp hx)

theorem notBlank_apply (s : String) :
    (notBlank s = some (.validation "string_not_blank" "must not be blank" []) ↔ s = "") ∧
    (s ≠ "" → notBlank s = none) := by
  unfold notBlank
  by_cases hs : "" = s
  · subst hs
    simp [NewError]
  · have hs' : ¬ s = "" := fun h => hs h.symm
    simp [hs, hs']

/-- C15: `String().NotBlankTrim().Compose()` returns the validation error of tag
`string_not_blank` without args on `s` if and only if `s` without its leading and
trailing white space is the empty string, that is if and only if every character
of `s` is white space (`s` is empty or all blank), and returns nil otherwise;
`String().NotBlank().Compose()` returns that error if and only if `s` is the empty
string, and returns nil otherwise. -/
theorem C15_not_blank (s : String) :
    (is_String.NotBlankTrim.Compose s =
        some (.validation "string_not_blank" "must not be blank" []) ↔ TrimSpace s = "") ∧
    (TrimSpace s = "" ↔ ∀ c ∈ s.data, isSpace c = true) ∧
    (TrimSpace s ≠ "" → is_String.NotBlankTrim.Compose s = none) ∧
    (is_String.NotBlank.Compose s =
        some (.validation "string_not_blank" "must not be blank" []) ↔ s = "") ∧
    (s ≠ "" → is_String.NotBlank.Compose s = none) ∧
    is_String.NotBlankTrim.Compose " " =
      some (.validation "string_not_blank" "must not be blank" []) ∧
    is_String.NotBlank.Compose " " = none := by
  have ht : is_String.NotBlankTrim.Compose s = notBlank (TrimSpace s) :=
    compose_identity_apply notBlankTrim s
  have hn : is_String.NotBlank.Compose s = notBlank s := compose_identity_apply notBlank s
  rw [ht, hn]
  exact ⟨(notBlank_apply (TrimSpace s)).1, TrimSpace_eq_empty s,
    (notBlank_apply (TrimSpace s)).2, (notBlank_apply s).1, (notBlank_apply s).2, rfl, rfl⟩

/-! ## The email pattern -/

theorem Regex.Matches.seq_inv {a b : Regex} {w : List Char} (h : Regex.Matches (.seq a b) w) :
    ∃ u v, w = u ++ v ∧ Regex.Matches a u ∧ Regex.Matches b v := by
  cases h with
  | seq _ _ u v ha hb => exact ⟨u, v, rfl, ha, hb⟩

theorem Regex.Matches.alt_inv {a b : Regex} {w : List Char} (h : Regex.Matches (.alt a b) w) :
    Regex.Matches a w ∨ Regex.Matches b w := by
  cases h with
  | altLeft _ _ _ ha => exact Or.inl ha
  | altRight _ _ _ hb => exact Or.inr hb

/-- The expression is nullable exactly when it matches the empty string. -/
theorem Regex.nullable_iff (r : Regex) : r.nullable = true ↔ Regex.Matches r [] := by
  induction r with
  | fail => simp only [Regex.nullable, Bool.false_eq_true, false_iff]; intro h; cases h
  | eps => simp only [Regex.nullable, true_iff]; exact .eps
  | cls ranges => simp only [Regex.nullable, Bool.false_eq_true, false_iff]; intro h; cases h
  | seq a b iha ihb =>
    simp only [Regex.nullable, Bool.and_eq_true, iha, ihb]
    constructor
    · rintro ⟨ha, hb⟩
      exact Regex.Matches.seq a b [] [] ha hb
    · intro h
      obtain ⟨u, v, huv, ha, hb⟩ := h.seq_inv
      have hu : u = [] := (List.append_eq_nil.mp huv.symm).1
      have hv : v = [] := (List.append_eq_nil.mp huv.symm).2
      subst hu hv
      exact ⟨ha, hb⟩
  | alt a b iha ihb =>
    simp only [Regex.nullable, Bool.or_eq_true, iha, ihb]
    constructor
    · rintro (ha | hb)
      · exact .altLeft a b [] ha
      · exact .altRight a b [] hb
    · intro h
      exact h.alt_inv
  | star a _ => simp only [Regex.nullable, true_iff]; exact .starNil a

/-- A match of `a*` on a string starting with `c` starts with a non-empty match of `a`. -/
theorem Regex.Matches.star_cons_inv {a : Regex} {r : Regex} {w : List Char}
    (h : Regex.Matches r w) : ∀ (c : Char) (s : List Char), r = .star a → w = c :: s →
      ∃ u v, s = u ++ v ∧ Regex.Matches a (c :: u) ∧ Regex.Matches (.star a) v := by
  induction h with
  | eps => intro c s hr; cases hr
  | cls ranges c h => intro c s hr; cases hr
  | seq a b u v ha hb _ _ => intro c s hr; cases hr
  | altLeft a b u ha _ => intro c s hr; cases hr
  | altRight a b u hb _ => intro c s hr; cases hr
  | starNil a => intro c s _ hw; cases hw
  | starCons a' u v ha hs _ ihs =>
    intro c s hr hw
    cases hr
    cases u with
    | nil => exact ihs c s rfl hw
    | cons d u' =>
      simp only [List.cons_append, List.cons.injEq] at hw
      obtain ⟨rfl, rfl⟩ := hw
      exact ⟨u', v, rfl, ha, hs⟩

/-- The derivative by `c` matches `s` exactly when the expression matches `c`
followed by `s`. -/
theorem Regex.deriv_iff (r : Regex) : ∀ (c : Char) (s : List Char),
    Regex.Matches (r.deriv c) s ↔ Regex.Matches r (c :: s) := by
  induction r with
  | fail =>
    intro c s
    simp only [Regex.deriv]
    constructor <;> (intro h; cases h)
  | eps =>
    intro c s
    simp only [Regex.deriv]
    constructor <;> (intro h; cases h)
  | cls ranges =>
    intro c s
    simp only [Regex.deriv]
    by_cases hin : Regex.inRanges ranges c = true
    · simp only [hin, if_true]
      constructor
      · intro h
        cases h
        exact .cls ranges c hin
      · intro h
        cases h
        exact .eps
    · simp only [hin, Bool.false_eq_true, if_false]
      constructor
      · intro h; cases h
      · intro h
        cases h with
        | cls _ _ h' => exact absurd h' hin
  | seq a b iha ihb =>
    intro c s
    have hfwd : Regex.Matches (.seq (a.deriv c) b) s → Regex.Matches (.seq a b) (c :: s) := by
      intro h
      obtain ⟨u, v, rfl, ha, hb⟩ := h.seq_inv
      exact Regex.Matches.seq a b (c :: u) v ((iha c u).mp ha) hb
    have hbwd : Regex.Matches (.seq a b) (c :: s) →
        Regex.Matches (.seq (a.deriv c) b) s ∨
          (Regex.Matches a [] ∧ Regex.Matches (b.deriv c) s) := by
      intro h
      obtain ⟨u, v, huv, ha, hb⟩ := h.seq_inv
      cases u with
      | nil =>
        simp only [List.nil_append] at huv
        subst huv
        exact Or.inr ⟨ha, (ihb c s).mpr hb⟩
      | cons d u' =>
        simp only [List.cons_append, List.cons.injEq] at huv
        obtain ⟨rfl, rfl⟩ := huv
        exact Or.inl (Regex.Matches.seq _ b u' v ((iha c u').mpr ha) hb)
    simp only [Regex.deriv]
    cases hn : a.nullable with
    | true =>
      simp only [if_true]
      constructor
      · intro h
        rcases h.alt_inv with h | h
        · exact hfwd h
        · have := Regex.Matches.seq a b [] (c :: s) ((Regex.nullable_iff a).mp hn)
            ((ihb c s).mp h)
          simpa using this
      · intro h
        rcases hbwd h with h | ⟨-, h⟩
        · exact .altLeft _ _ _ h
        · exact .altRight _ _ _ h
    | false =>
      simp only [Bool.false_eq_true, if_false]
      constructor
      · exact hfwd
      · intro h
        rcases hbwd h with h | ⟨ha, -⟩
        · exact h
        · have := (Regex.nullable_iff a).mpr ha
          rw [hn] at this
          cases this
  | alt a b iha ihb =>
    intro c s
    simp only [Regex.deriv]
    constructor
    · intro h
      rcases h.alt_inv with h | h
      · exact .altLeft _ _ _ ((iha c s).mp h)
      · exact .altRight _ _ _ ((ihb c s).mp h)
    · intro h
      rcases h.alt_inv with h | h
      · exact .altLeft _ _ _ ((iha c s).mpr h)
      · exact .altRight _ _ _ ((ihb c s).mpr h)
  | star a iha =>
    intro c s
    simp only [Regex.deriv]
    constructor
    · intro h
      obtain ⟨u, v, rfl, ha, hs⟩ := h.seq_inv
      exact Regex.Matches.starCons a (c :: u) v ((iha c u).mp ha) hs
    · intro h
      obtain ⟨u, v, rfl, ha, hs⟩ := Regex.Matches.star_cons_inv h c s rfl rfl
      exact Regex.Matches.seq _ _ u v ((iha c u).mpr ha) hs

/-- The matcher by derivatives decides the matching relation. -/
theorem Regex.matchList_iff (s : List Char) : ∀ r : Regex,
    r.matchList s = true ↔ Regex.Matches r s := by
  induction s with
  | nil => intro r; exact Regex.nullable_iff r
  | cons c cs ih =>
    intro r
    simp only [Regex.matchList]
    exact (ih (r.deriv c)).trans (Regex.deriv_iff r c cs)

theorem Regex.inRanges_of_needsAt (ranges : List (Nat × Nat)) (c : Char)
    (hall : ranges.all (fun r => decide (r.1 = 64) && decide (r.2 = 64)) = true)
    (hin : Regex.inRanges ranges c = true) : c.toNat = 64 := by
  simp only [Regex.inRanges, List.any_eq_true, Bool.and_eq_true, decide_eq_true_eq] at hin
  obtain ⟨r, hr, hlo, hhi⟩ := hin
  simp only [List.all_eq_true, Bool.and_eq_true, decide_eq_true_eq] at hall
  obtain ⟨h1, h2⟩ := hall r hr
  omega

/-- An expression whose matches all hold `@` does not match the empty string. -/
theorem Regex.nullable_of_needsAt (r : Regex) (h : r.needsAt = true) : r.nullable = false := by
  induction r with
  | fail => rfl
  | eps => simp [Regex.needsAt] at h
  | cls ranges => rfl
  | seq a b iha ihb =>
    simp only [Regex.needsAt, Bool.or_eq_true] at h
    simp only [Regex.nullable, Bool.and_eq_false_iff]
    rcases h with h | h
    · exact Or.inl (iha h)
    · exact Or.inr (ihb h)
  | alt a b iha ihb =>
    simp only [Regex.needsAt, Bool.and_eq_true] at h
    simp [Regex.nullable, iha h.1, ihb h.2]
  | star a _ => simp [Regex.needsAt] at h

/-- Reading a character other than `@` keeps the need of an `@`. -/
theorem Regex.needsAt_deriv (r : Regex) (c : Char) (h : r.needsAt = true) :
    (r.deriv c).needsAt = true ∨ c.toNat = 64 := by
  induction r with
  | fail => left; rfl
  | eps => simp [Regex.needsAt] at h
  | cls ranges =>
    simp only [Regex.needsAt] at h
    by_cases hin : Regex.inRanges ranges c = true
    · right; exact Regex.inRanges_of_needsAt ranges c h hin
    · left; simp [Regex.deriv, hin, Regex.needsAt]
  | seq a b iha ihb =>
    simp only [Regex.needsAt, Bool.or_eq_true] at h
    rcases h with h | h
    · have hn := Regex.nullable_of_needsAt a h
      rcases iha h with h' | h'
      · left; simp [Regex.deriv, hn, Regex.needsAt, h']
      · right; exact h'
    · rcases ihb h with h' | h'
      · left
        cases hn : a.nullable <;> simp [Regex.deriv, hn, Regex.needsAt, h, h']
      · right; exact h'
  | alt a b iha ihb =>
    simp only [Regex.needsAt, Bool.and_eq_true] at h
    rcases iha h.1 with ha | ha
    · rcases ihb h.2 with hb | hb
      · left; simp [Regex.deriv, Regex.needsAt, ha, hb]
      · right; exact hb
    · right; exact ha
  | star a _ => simp [Regex.needsAt] at h

theorem Regex.mem_of_matchList (cs : List Char) :
    ∀ r : Regex, r.needsAt = true → r.matchList cs = true → ∃ c ∈ cs, c.toNat = 64 := by
  induction cs with
  | nil =>
    intro r h hm
    simp [Regex.matchList, Regex.nullable_of_needsAt r h] at hm
  | cons c cs ih =>
    intro r h hm
    simp only [Regex.matchList] at hm
    rcases Regex.needsAt_deriv r c h with h' | h'
    · obtain ⟨d, hd, hd64⟩ := ih (r.deriv c) h' hm
      exact ⟨d, List.mem_cons_of_mem _ hd, hd64⟩
    · exact ⟨c, List.mem_cons_self _ _, h'⟩

theorem char_eq_at (c : Char) (h : c.toNat = 64) : c = '@' := by
  apply Char.ext
  apply UInt32.ext
  exact h

/-- Every string that matches the email pattern holds the character `@`. -/
theorem regexEmail_match_has_at (s : String) (h : regexEmail.MatchString s = true) :
    '@' ∈ s.data := by
  obtain ⟨c, hc, h64⟩ := Regex.mem_of_matchList s.data regexEmail (by decide) h
  rw [← char_eq_at c h64]
  exact hc

/-- The email pattern on the values of the tests of the repository: `bob`,
`bob alexander` and `bob@mail` do not match, `bob@mail.com` matches. -/
theorem regexEmail_on_tests :
    regexEmail.MatchString "bob" = false ∧
    regexEmail.MatchString "bob alexander" = false ∧
    regexEmail.MatchString "bob@mail" = false ∧
    regexEmail.MatchString "bob@mail.com" = true := by
  refine ⟨by decide, by decide, by decide, by decide⟩

/-- Every string that matches the email pattern is a match of the local part,
the character `@`, and a match of the domain. -/
theorem regexEmail_match_split (s : String) (h : regexEmail.MatchString s = true) :
    ∃ l d, s.data = l ++ '@' :: d ∧ Regex.Matches reLocal l ∧ Regex.Matches reDomain d := by
  have hm : Regex.Matches regexEmail s.data := (Regex.matchList_iff s.data regexEmail).mp h
  obtain ⟨l, v, hlv, hl, hv⟩ := Regex.Matches.seq_inv hm
  obtain ⟨a, d, had, ha, hd⟩ := Regex.Matches.seq_inv hv
  cases ha with
  | cls _ c hc =>
    have h64 : c.toNat = 64 :=
      Regex.inRanges_of_needsAt [(0x40, 0x40)] c (by decide) hc
    refine ⟨l, d, ?_, hl, hd⟩
    rw [hlv, had, char_eq_at c h64]
    rfl

/-- C16: on every string `s` without the character `@`, `String().Email().Compose()`
returns the validation error of tag `string_email`, since every match of the email
pattern holds an `@` between a match of the local part and a match of the
domain. -/
theorem C16_email_needs_at (s : String) (hat : '@' ∉ s.data) :
    is_String.Email.Compose s =
      some (.validation "string_email" "must be a valid email address" []) ∧
    (∀ t : String, regexEmail.MatchString t = true →
      ∃ l d, t.data = l ++ '@' :: d ∧ Regex.Matches reLocal l ∧ Regex.Matches reDomain d) := by
  have he : is_String.Email.Compose s = email s := compose_identity_apply email s
  have hm : regexEmail.MatchString s = false := by
    cases hmatch : regexEmail.MatchString s with
    | false => rfl
    | true => exact absurd (regexEmail_match_has_at s hmatch) hat
  refine ⟨?_, regexEmail_match_split⟩
  rw [he]
  simp [email, hm, NewError]

/-- The strings `bob` and `bob alexander` of the tests hold no `@` and are
rejected with `string_email`. -/
theorem C16_email_needs_at_witness :
    ('@' ∉ "bob".data ∧
      is_String.Email.Compose "bob" =
        some (.validation "string_email" "must be a valid email address" [])) ∧
    ('@' ∉ "bob alexander".data ∧
      is_String.Email.Compose "bob alexander" =
        some (.validation "string_email" "must be a valid email address" [])) :=
  ⟨⟨by decide, (C16_email_needs_at "bob" (by decide)).1⟩,
   ⟨by decide, (C16_email_needs_at "bob alexander" (by decide)).1⟩⟩

/-! ## Chains of integer and length constraints -/

theorem int_min_max_apply (a b v : Int) :
    (((is_Int Int).Min a).Max b).Compose v =
      match minimum "integer_min" a v with
      | some e => some e
      | none => maximum "integer_max" b v := by
  have h := foldl_compose_apply [minimum "integer_min" a, maximum "integer_max" b]
    (Identity : Composer Int) v
  simp only [List.foldl_cons, List.foldl_nil, Identity, nop, mergeValidator.loop] at h
  have h' : (((is_Int Int).Min a).Max b).Compose v =
      match minimum "integer_min" a v with
      | some err => some err
      | none =>
        match maximum "integer_max" b v with
        | some err => some err
        | none => none := h
  rw [h']
  cases minimum "integer_min" a v with
  | some e => rfl
  | none => cases maximum "integer_max" b v <;> rfl

/-- C17: `Int().Min(a).Max(b).Compose()` returns nil on `v` if and only if
`a <= v` and `v <= b`; when `v < a` the error is the `integer_min` error (also when
`v > b` holds too); when `v >= a` and `v > b` the error is the `integer_max` error
with args `max` equal to `b` and `val` equal to `v`; so when `a > b` every value
is rejected. -/
theorem C17_min_max_chain (a b v : Int) :
    ((((is_Int Int).Min a).Max b).Compose v = none ↔ a ≤ v ∧ v ≤ b) ∧
    (v < a → (((is_Int Int).Min a).Max b).Compose v =
      some (.validation "integer_min" ("must be greater than or equal to " ++ toString a)
        [("min", .int a), ("val", .int v)])) ∧
    (a ≤ v → b < v → (((is_Int Int).Min a).Max b).Compose v =
      some (.validation "integer_max" ("must be less than or equal to " ++ toString b)
        [("max", .int b), ("val", .int v)])) ∧
    (b < a → (((is_Int Int).Min a).Max b).Compose v ≠ none) := by
  rw [int_min_max_apply]
  have hmin_lt : v < a → minimum "integer_min" a v =
      some (.validation "integer_min" ("must be greater than or equal to " ++ toString a)
        [("min", .int a), ("val", .int v)]) := by
    intro h; simp [minimum_int, h, NewError]
  have hmin_ge : a ≤ v → minimum "integer_min" a v = none := by
    intro h
    have : ¬ v < a := by omega
    simp [minimum_int, this]
  have hmax_lt : b < v → maximum "integer_max" b v =
      some (.validation "integer_max" ("must be less than or equal to " ++ toString b)
        [("max", .int b), ("val", .int v)]) := by
    intro h; simp [maximum_int, h, NewError]
  have hmax_ge : v ≤ b → maximum "integer_max" b v = none := by
    intro h
    have : ¬ b < v := by omega
    simp [maximum_int, this]
  have hiff : (match minimum "integer_min" a v with
      | some e => some e
      | none => maximum "integer_max" b v) = none ↔ a ≤ v ∧ v ≤ b := by
    by_cases h1 : v < a
    · rw [hmin_lt h1]
      constructor
      · intro h; cases h
      · rintro ⟨h, -⟩; omega
    · rw [hmin_ge (by omega)]
      by_cases h2 : b < v
      · rw [hmax_lt h2]
        constructor
        · intro h; cases h
        · rintro ⟨-, h⟩; omega
      · rw [hmax_ge (by omega)]
        simp only [true_iff]
        constructor <;> omega
  refine ⟨hiff, ?_, ?_, ?_⟩
  · intro h
    rw [hmin_lt h]
  · intro h1 h2
    rw [hmin_ge h1, hmax_lt h2]
  · intro hba hnone
    have := hiff.mp hnone
    omega

/-- C18: whenever `String().Len(min,max).Compose()` rejects `s` with the error `e`,
the tag of `e` is `string_len` and its args are `min`, `max` and `len` equal to
`len(s)`; its message is `must be at least <min> characters` when `min > 0` and
`len(s) < min` (also when the maximum is exceeded too) and
`must be at most <max> characters` otherwise. -/
theorem C18_len_error (min max : Int) (s : String) (e : GoError)
    (h : (is_String.Len min max).Compose s = some e) :
    (min > 0 ∧ (s.utf8ByteSize : Int) < min →
      e = .validation "string_len" ("must be at least " ++ toString min ++ " characters")
        [("min", .int min), ("max", .int max), ("len", .int (s.utf8ByteSize : Int))]) ∧
    (¬ (min > 0 ∧ (s.utf8ByteSize : Int) < min) →
      e = .validation "string_len" ("must be at most " ++ toString max ++ " characters")
        [("min", .int min), ("max", .int max), ("len", .int (s.utf8ByteSize : Int))]) := by
  have h' : strLen min max s = some e :=
    (compose_identity_apply (strLen min max) s).symm.trans h
  rcases strLen_eq_some min max s e h' with ⟨h1, h2, he⟩ | ⟨h1, -, -, he⟩
  · refine ⟨fun _ => he, ?_⟩
    intro hn
    exact absurd ⟨h1, by omega⟩ hn
  · refine ⟨?_, fun _ => he⟩
    intro hn
    exact absurd ⟨hn.1, by omega⟩ h1

/-- The test value: `Len(4,40)` rejects `bob` with `len` 3, `min` 4, `max` 40 and
the message for the minimum. -/
theorem C18_len_error_witness :
    (is_String.Len 4 40).Compose "bob" =
      some (.validation "string_len" "must be at least 4 characters"
        [("min", .int 4), ("max", .int 40), ("len", .int 3)]) ∧
    GoError.validation "string_len" "must be at least 4 characters"
        [("min", .int 4), ("max", .int 40), ("len", .int 3)] =
      .validation "string_len" ("must be at least " ++ toString (4 : Int) ++ " characters")
        [("min", .int 4), ("max", .int 40), ("len", .int ("bob".utf8ByteSize : Int))] :=
  ⟨rfl, (C18_len_error 4 40 "bob" _ rfl).1 (by decide)⟩

/-- C19: on the string `é`, of one character and two bytes, `Len(1,1)` returns the
error `must be at most 1 characters` with `len` 2: the length measured is the
number of bytes, not the number of characters. -/
theorem C19_len_counts_bytes :
    "é".length = 1 ∧ "é".utf8ByteSize = 2 ∧
    (is_String.Len 1 1).Compose "é" =
      some (.validation "string_len" "must be at most 1 characters"
        [("min", .int 1), ("max", .int 1), ("len", .int 2)]) :=
  ⟨by decide, by decide, rfl⟩

/-! ## Order and number of the invocations -/

/-- The recording loop returns what the loop of `mergeValidator` returns. -/
theorem mergeLogged_loop_fst {T : Type} (x : T) (fs : List (Validator T)) (i : Nat)
    (log : List Nat) :
    (mergeLogged.loop x (loggedFrom i fs) log).1 = mergeValidator.loop x fs := by
  induction fs generalizing i log with
  | nil => rfl
  | cons f rest ih =>
    cases hf : f x with
    | none =>
      simp only [loggedFrom, mergeLogged.loop, logged, hf, mergeValidator.loop]
      exact ih (i + 1) _
    | some e => simp only [loggedFrom, mergeLogged.loop, logged, hf, mergeValidator.loop]

/-- When no validator fails, each of them is invoked once, in order. -/
theorem mergeLogged_loop_all_none {T : Type} (x : T) (fs : List (Validator T)) (i : Nat)
    (log : List Nat) (h : ∀ f ∈ fs, f x = none) :
    mergeLogged.loop x (loggedFrom i fs) log = (none, log ++ List.range' i fs.length) := by
  induction fs generalizing i log with
  | nil => simp [loggedFrom, mergeLogged.loop]
  | cons f rest ih =>
    have hf : f x = none := h f (List.mem_cons_self _ _)
    have hrest : ∀ g ∈ rest, g x = none := fun g hg => h g (List.mem_cons_of_mem _ hg)
    simp only [loggedFrom, mergeLogged.loop, logged, hf]
    rw [ih (i + 1) _ hrest]
    simp [List.range'_succ]

/-- When a validator fails, the ones before it and itself are invoked once, in
order, and none after it. -/
theorem mergeLogged_loop_first_error {T : Type} (x : T) (pre : List (Validator T))
    (f : Validator T) (post : List (Validator T)) (e : GoError) (i : Nat) (log : List Nat)
    (hpre : ∀ u ∈ pre, u x = none) (hf : f x = some e) :
    mergeLogged.loop x (loggedFrom i (pre ++ f :: post)) log =
      (some e, log ++ List.range' i (pre.length + 1)) := by
  induction pre generalizing i log with
  | nil =>
    simp [loggedFrom, mergeLogged.loop, logged, hf]
  | cons u rest ih =>
    have hu : u x = none := hpre u (List.mem_cons_self _ _)
    have hrest : ∀ g ∈ rest, g x = none := fun g hg => hpre g (List.mem_cons_of_mem _ hg)
    show mergeLogged.loop x (loggedFrom i (u :: (rest ++ f :: post))) log = _
    simp only [loggedFrom, mergeLogged.loop, logged, hu]
    rw [ih (i + 1) _ hrest]
    simp [List.range'_succ]

/-- A recording chain started from the composer `c` invokes `c` first and then the
appended validators through the recording loop. -/
theorem foldl_composeLogged_apply {T : Type} (vs : List (LoggedValidator T))
    (c : LoggedValidator T → LoggedValidator T) (x : T) (log : List Nat) :
    (vs.foldl composeLogged c) nopLogged x log =
      match c nopLogged x log with
      | (some e, l) => (some e, l)
      | (none, l) => mergeLogged.loop x vs l := by
  induction vs generalizing c with
  | nil =>
    simp only [List.foldl_nil, mergeLogged.loop]
    rcases c nopLogged x log with ⟨_ | e, l⟩ <;> rfl
  | cons v rest ih =>
    rw [List.foldl_cons, ih]
    simp only [composeLogged, mergeLogged, mergeLogged.loop]
    cases hc : c nopLogged x log with
    | mk r l =>
      cases r with
      | none =>
        cases hv : v x l with
        | mk r' l' => cases r' <;> simp [hv]
      | some e => simp

/-- C20: apply the validator of `mergeValidator` to `x`, each validator recording
its invocation under its position in the list. The result is the one of
`mergeValidator`; when no validator fails the log is `0, 1, ..., n-1`; when the
validator at position `i` is the first to fail the log is `0, 1, ..., i`. So the
validators are invoked in order up to and including the first that fails, each at
most once, and none after it; and a chain built with `compose` and ended by `nop`
makes the same invocations. -/
theorem C20_short_circuit {T : Type} (fs : List (Validator T)) (x : T) :
    (mergeLogged (loggedFrom 0 fs) x []).1 = mergeValidator fs x ∧
    ((∀ f ∈ fs, f x = none) →
      (mergeLogged (loggedFrom 0 fs) x []).2 = List.range fs.length) ∧
    (∀ pre f post e, fs = pre ++ f :: post → (∀ u ∈ pre, u x = none) → f x = some e →
      (mergeLogged (loggedFrom 0 fs) x []).2 = List.range (pre.length + 1) ∧
      ∀ j, pre.length < j → j ∉ (mergeLogged (loggedFrom 0 fs) x []).2) ∧
    (mergeLogged (loggedFrom 0 fs) x []).2.Nodup ∧
    ((loggedFrom 0 fs).foldl composeLogged Identity) nopLogged x [] =
      mergeLogged (loggedFrom 0 fs) x [] := by
  have hfirst : ∀ pre f post e, fs = pre ++ f :: post → (∀ u ∈ pre, u x = none) →
      f x = some e →
      (mergeLogged (loggedFrom 0 fs) x []).2 = List.range (pre.length + 1) := by
    intro pre f post e hfs hpre hf
    subst hfs
    simp only [mergeLogged, mergeLogged_loop_first_error x pre f post e 0 [] hpre hf,
      List.nil_append, List.range_eq_range']
  have hnone : (∀ f ∈ fs, f x = none) →
      (mergeLogged (loggedFrom 0 fs) x []).2 = List.range fs.length := by
    intro h
    simp only [mergeLogged, mergeLogged_loop_all_none x fs 0 [] h, List.nil_append,
      List.range_eq_range']
  refine ⟨mergeLogged_loop_fst x fs 0 [], hnone, ?_, ?_, ?_⟩
  · intro pre f post e hfs hpre hf
    refine ⟨hfirst pre f post e hfs hpre hf, ?_⟩
    intro j hj hmem
    rw [hfirst pre f post e hfs hpre hf, List.mem_range] at hmem
    omega
  · cases hm : mergeValidator.loop x fs with
    | none =>
      rw [hnone ((mergeValidator_loop_eq_none x fs).mp hm)]
      exact List.nodup_range _
    | some e =>
      obtain ⟨pre, f, post, hfs, hpre, hf⟩ := (mergeValidator_loop_eq_some x fs e).mp hm
      rw [hfirst pre f post e hfs hpre hf]
      exact List.nodup_range _
  · have h := foldl_composeLogged_apply (loggedFrom 0 fs) (Identity) x []
    simpa [Identity, nopLogged, mergeLogged] using h
